import Mathlib

/-!
# Verification of the genno computation-graph engine

Shallow embedding of the core of the `genno` package: the `Key` naming
scheme, unit-aware `Quantity` binary operations (`genno/core/base.py`),
the keyed task `Graph` with its indexes, and the `Computer` facade
(`genno/core/computer.py`): `add_single`, `check_keys`, `add_queue` and
`get` (culling and evaluation, after `dask.optimization.cull` and the
synchronous `dask.get` scheduler).

Python `str`/`Key` graph keys are modelled by the structure `Key`; the
dictionary identity of the graph (hashing by the rendered string form)
is modelled by structural equality of `Key`, which coincides with string
equality for well-formed components.
-/

instance {ε α : Type} [DecidableEq ε] [DecidableEq α] : DecidableEq (Except ε α) :=
  fun a b =>
    match a, b with
    | .ok x, .ok y =>
      if h : x = y then isTrue (by rw [h]) else
        isFalse (fun hc => h (Except.ok.inj hc))
    | .error x, .error y =>
      if h : x = y then isTrue (by rw [h]) else
        isFalse (fun hc => h (Except.error.inj hc))
    | .ok _, .error _ => isFalse (fun hc => Except.noConfusion hc)
    | .error _, .ok _ => isFalse (fun hc => Except.noConfusion hc)

namespace Genno

/-- Modelled from the spec: `genno/core/key.py` is not present in the
source tree (only its tests are).  A Key has a name, an ordered sequence
of dimension identifiers and an optional tag ("§3.1 Key"). -/
structure Key where
  name : String
  dims : List String
  tag : Option String
deriving DecidableEq, Repr

/-- Render a list of dimension names joined by `-`, as in the textual
form `name:d1-d2-d3`.  Characters are used so that injectivity of the
rendering can be reasoned about directly. -/
def dimsChars : List String → List Char
  | [] => []
  | [d] => d.data
  | d :: rest => d.data ++ '-' :: dimsChars rest

/-- Modelled from the spec: the canonical textual form of a Key,
`name`, `name:d1-d2-d3`, `name::tag` or `name:d1-d2:tag` ("§3.1"),
with dims in *their given order*. -/
def strChars (k : Key) : List Char :=
  match k.tag with
  | some t => k.name.data ++ (':' :: (dimsChars k.dims ++ (':' :: t.data)))
  | none =>
    match k.dims with
    | [] => k.name.data
    | ds => k.name.data ++ (':' :: dimsChars ds)

/-- Modelled from the spec: `hash(k)` is computed from the canonical
textual form with dims in their given order ("§3.1", "§9"); the hash is
modelled as that textual form itself. -/
def hashKey (k : Key) : List Char := strChars k

/-- Modelled from the spec: two keys are equal iff name, tag and the
*set* of dims agree ("§3.1"). -/
def keyEq (k₁ k₂ : Key) : Bool :=
  k₁.name == k₂.name && k₁.tag == k₂.tag
    && k₁.dims.all (· ∈ k₂.dims) && k₂.dims.all (· ∈ k₁.dims)

/-- Dimension identifiers drawn from the alphabet `[A-Za-z0-9_]+`
("§6.1") are non-empty and contain neither `-` nor `:`. -/
def WFdim (d : String) : Prop :=
  d.data ≠ [] ∧ '-' ∉ d.data ∧ ':' ∉ d.data

def WFdims (l : List String) : Prop := ∀ d ∈ l, WFdim d

instance (d : String) : Decidable (WFdim d) := by unfold WFdim; infer_instance

instance (l : List String) : Decidable (WFdims l) := List.decidableBAll _ l

/-- Splitting at the first separator: if the prefixes contain no `-`,
an equation `a ++ '-' :: x = b ++ '-' :: y` forces `a = b` and `x = y`. -/
theorem sep_split : ∀ {a b x y : List Char}, '-' ∉ a → '-' ∉ b →
    a ++ '-' :: x = b ++ '-' :: y → a = b ∧ x = y := by
  intro a
  induction a with
  | nil =>
    intro b x y _ hb h
    cases b with
    | nil =>
      simp only [List.nil_append, List.cons.injEq] at h
      exact ⟨rfl, h.2⟩
    | cons c bs =>
      simp only [List.nil_append, List.cons_append, List.cons.injEq] at h
      exact absurd (h.1 ▸ List.mem_cons_self c bs) (fun hm => hb (h.1 ▸ hm))
  | cons c as ih =>
    intro b x y ha hb h
    cases b with
    | nil =>
      simp only [List.cons_append, List.nil_append, List.cons.injEq] at h
      exact absurd (List.mem_cons_self c as) (h.1 ▸ ha)
    | cons d bs =>
      simp only [List.cons_append, List.cons.injEq] at h
      have ha' : '-' ∉ as := fun hm => ha (List.mem_cons_of_mem _ hm)
      have hb' : '-' ∉ bs := fun hm => hb (List.mem_cons_of_mem _ hm)
      obtain ⟨h1, h2⟩ := ih ha' hb' h.2
      exact ⟨by rw [h.1, h1], h2⟩

/-- The rendering of a dims sequence is injective on well-formed dims. -/
theorem dimsChars_inj : ∀ {l₁ l₂ : List String}, WFdims l₁ → WFdims l₂ →
    dimsChars l₁ = dimsChars l₂ → l₁ = l₂ := by
  intro l₁
  induction l₁ with
  | nil =>
    intro l₂ _ h₂ h
    cases l₂ with
    | nil => rfl
    | cons d r =>
      cases r with
      | nil =>
        exact absurd h.symm (by simpa [dimsChars] using (h₂ d (List.mem_cons_self _ _)).1)
      | cons e r' =>
        simp only [dimsChars] at h
        have : d.data = ([] : List Char) ∧ ('-' :: dimsChars (e :: r')) = [] :=
          List.append_eq_nil.mp h.symm
        exact absurd this.2 (by simp)
  | cons a as ih =>
    intro l₂ h₁ h₂ h
    cases as with
    | nil =>
      cases l₂ with
      | nil =>
        exact absurd h (by simpa [dimsChars] using (h₁ a (List.mem_cons_self _ _)).1)
      | cons d r =>
        cases r with
        | nil =>
          simp only [dimsChars] at h
          have : a = d := by
            cases a; cases d; simp only [String.data] at h; rw [h]
          rw [this]
        | cons e r' =>
          simp only [dimsChars] at h
          have hmem : '-' ∈ a.data := by
            rw [h]; exact List.mem_append.mpr (Or.inr (List.mem_cons_self _ _))
          exact absurd hmem (h₁ a (List.mem_cons_self _ _)).2.1
    | cons a' as' =>
      cases l₂ with
      | nil =>
        exact absurd h.symm (by
          simp only [dimsChars]
          intro hcontra
          have : a.data = ([] : List Char) ∧ ('-' :: dimsChars (a' :: as')) = [] :=
            List.append_eq_nil.mp hcontra.symm
          simp at this)
      | cons d r =>
        cases r with
        | nil =>
          simp only [dimsChars] at h
          have hmem : '-' ∈ d.data := by
            rw [← h]; exact List.mem_append.mpr (Or.inr (List.mem_cons_self _ _))
          exact absurd hmem (h₂ d (List.mem_cons_self _ _)).2.1
        | cons e r' =>
          simp only [dimsChars] at h
          have ha : '-' ∉ a.data := (h₁ a (List.mem_cons_self _ _)).2.1
          have hd : '-' ∉ d.data := (h₂ d (List.mem_cons_self _ _)).2.1
          obtain ⟨heq, htail⟩ := sep_split ha hd h
          have h₁' : WFdims (a' :: as') := fun x hx => h₁ x (List.mem_cons_of_mem _ hx)
          have h₂' : WFdims (e :: r') := fun x hx => h₂ x (List.mem_cons_of_mem _ hx)
          have : a = d := by cases a; cases d; simp only [String.data] at heq; rw [heq]
          rw [this, ih h₁' h₂' htail]

/-- The canonical textual form is injective on keys with equal name and
tag and well-formed dims of equal non-emptiness shape. -/
theorem strChars_inj_dims {k₁ k₂ : Key}
    (hname : k₁.name = k₂.name) (htag : k₁.tag = k₂.tag)
    (hwf₁ : WFdims k₁.dims) (hwf₂ : WFdims k₂.dims)
    (h : strChars k₁ = strChars k₂) : k₁.dims = k₂.dims := by
  obtain ⟨n₁, d₁, t₁⟩ := k₁
  obtain ⟨n₂, d₂, t₂⟩ := k₂
  simp only at hname htag hwf₁ hwf₂ ⊢
  subst hname htag
  cases t₁ with
  | some t =>
    simp only [strChars] at h
    have h' := List.append_cancel_left h
    simp only [List.cons.injEq, true_and] at h'
    exact dimsChars_inj hwf₁ hwf₂ (List.append_cancel_right h')
  | none =>
    cases d₁ with
    | nil =>
      cases d₂ with
      | nil => rfl
      | cons e r =>
        exfalso
        simp only [strChars] at h
        have := congrArg List.length h
        simp at this
    | cons a as =>
      cases d₂ with
      | nil =>
        exfalso
        simp only [strChars] at h
        have := congrArg List.length h
        simp at this
      | cons b bs =>
        simp only [strChars] at h
        have h' := List.append_cancel_left h
        simp only [List.cons.injEq, true_and] at h'
        exact dimsChars_inj hwf₁ hwf₂ h'

/-- C6: two Keys with the same name and tag whose dims are permutations
of one another compare equal (`keyEq`), yet the hash is the canonical
textual form with dims in their given order, so differently-ordered dims
give different hashes. -/
theorem key_equal_hash_differs (k₁ k₂ : Key)
    (hname : k₁.name = k₂.name) (htag : k₁.tag = k₂.tag)
    (hperm : k₁.dims.Perm k₂.dims)
    (hwf : WFdims k₁.dims)
    (hdiff : k₁.dims ≠ k₂.dims) :
    keyEq k₁ k₂ = true ∧ hashKey k₁ = strChars k₁ ∧ hashKey k₁ ≠ hashKey k₂ := by
  have hwf₂ : WFdims k₂.dims := fun d hd => hwf d (hperm.mem_iff.mpr hd)
  refine ⟨?_, rfl, ?_⟩
  · simp only [keyEq, Bool.and_eq_true, beq_iff_eq, List.all_eq_true, decide_eq_true_eq]
    exact ⟨⟨⟨hname, htag⟩, fun d hd => hperm.mem_iff.mp hd⟩,
      fun d hd => hperm.mem_iff.mpr hd⟩
  · intro h
    exact hdiff (strChars_inj_dims hname htag hwf hwf₂ h)

/-- Witness for C6 at the keys of `test_sorted`: `foo:a-b-c` and
`foo:c-b-a`. -/
theorem key_equal_hash_differs_witness :
    keyEq ⟨"foo", ["a", "b", "c"], none⟩ ⟨"foo", ["c", "b", "a"], none⟩ = true
    ∧ hashKey ⟨"foo", ["a", "b", "c"], none⟩ = strChars ⟨"foo", ["a", "b", "c"], none⟩
    ∧ hashKey ⟨"foo", ["a", "b", "c"], none⟩ ≠ hashKey ⟨"foo", ["c", "b", "a"], none⟩ :=
  key_equal_hash_differs _ _ rfl rfl (by decide) (by decide) (by decide)

/-! ## iter_sums -/

/-- Modelled from the spec: the partial-sum task
`(sum_op, source_key, None, drop_dims)` paired with each subset Key by
`Key.iter_sums` ("§4.1 iter_sums"); `weights` is the constant `None`
argument. -/
structure PartialSumTask where
  source : Key
  weights : Option String
  dims : List String
deriving DecidableEq, Repr

/-- Modelled from the spec: `Key.iter_sums` enumerates all
strictly-smaller subsets of dims ("§3.1"), yielding for each the subset
Key together with a partial-sum task whose source is the original key
and whose `drop_dims` are the complementary dims; `genno/core/key.py` is
not present in the source tree.  The enumeration over all strict subsets
(including the empty subset, as `test_key.py` line 29 requires: 7
entries for 3 dims) is modelled by the sublists of `dims` other than
`dims` itself. -/
def iterSums (k : Key) : List (Key × PartialSumTask) :=
  (k.dims.sublists.filter (fun s => s ≠ k.dims)).map
    (fun s => (⟨k.name, s, k.tag⟩, ⟨k, none, k.dims.filter (· ∉ s)⟩))

/-- Removing the single occurrence of a member from a duplicate-free
list by filtering shortens it by exactly one. -/
theorem length_filter_ne {α : Type} [DecidableEq α] {l : List α} {a : α}
    (hnd : l.Nodup) (hm : a ∈ l) :
    (l.filter (fun x => x ≠ a)).length = l.length - 1 := by
  induction l with
  | nil => cases hm
  | cons b bs ih =>
    have hnd' := List.nodup_cons.mp hnd
    by_cases hba : b = a
    · subst hba
      have hid : bs.filter (fun x => x ≠ b) = bs :=
        List.filter_eq_self.mpr (fun x hx => by
          simp only [decide_eq_true_eq]
          exact fun hxb => hnd'.1 (hxb ▸ hx))
      rw [List.filter_cons]
      have hcond : (decide (b ≠ b)) = false := by simp
      rw [hcond]
      simp only [Bool.false_eq_true, if_false, hid, List.length_cons, Nat.add_sub_cancel]
    · have hmem : a ∈ bs := by
        rcases List.mem_cons.mp hm with h | h
        · exact absurd h.symm hba
        · exact h
      have hlen : 1 ≤ bs.length := List.length_pos.mpr (List.ne_nil_of_mem hmem)
      have hcond : (decide (b ≠ a)) = true := by simpa using hba
      rw [List.filter_cons, hcond]
      simp only [if_true]
      rw [List.length_cons, List.length_cons, ih hnd'.2 hmem]
      omega

/-- C7 (amended): for a Key with `n ≥ 1` pairwise-distinct dims,
`iter_sums` emits exactly one entry per strict subset of the dims —
`2 ^ n − 1` entries, the empty subset included — pairing the subset Key
with a partial-sum task that references `k` as source and drops the
complementary dims. -/
theorem iterSums_strict_subsets (k : Key) (_hne : k.dims ≠ [])
    (hnd : k.dims.Nodup) :
    (iterSums k).length = 2 ^ k.dims.length - 1
    ∧ (∀ e ∈ iterSums k, e.1.name = k.name ∧ e.1.tag = k.tag
        ∧ e.1.dims.Sublist k.dims ∧ e.1.dims ≠ k.dims
        ∧ e.2.source = k ∧ e.2.weights = none
        ∧ e.2.dims = k.dims.filter (· ∉ e.1.dims))
    ∧ ((iterSums k).map (fun e => e.1.dims)).Nodup
    ∧ (∀ s : List String, s.Sublist k.dims → s ≠ k.dims →
        (⟨⟨k.name, s, k.tag⟩, ⟨k, none, k.dims.filter (· ∉ s)⟩⟩ : Key × PartialSumTask)
          ∈ iterSums k) := by
  have hmem : k.dims ∈ k.dims.sublists := List.mem_sublists.mpr (List.Sublist.refl _)
  have hsubnd : k.dims.sublists.Nodup := List.nodup_sublists.mpr hnd
  have hfilter_nd : (k.dims.sublists.filter (fun s => s ≠ k.dims)).Nodup :=
    hsubnd.filter _
  refine ⟨?_, ?_, ?_, ?_⟩
  · -- length: filtering the full list out of the 2^n sublists leaves 2^n − 1
    unfold iterSums
    rw [List.length_map, length_filter_ne hsubnd hmem, List.length_sublists]
  · intro e he
    simp only [iterSums, List.mem_map] at he
    obtain ⟨s, hs, rfl⟩ := he
    have h1 := List.mem_sublists.mp (List.mem_of_mem_filter hs)
    have h2 : s ≠ k.dims := by simpa using List.of_mem_filter hs
    exact ⟨rfl, rfl, h1, h2, rfl, rfl, rfl⟩
  · unfold iterSums
    rw [List.map_map]
    have hcomp : ((fun e : Key × PartialSumTask => e.1.dims) ∘ fun s : List String =>
        ((⟨k.name, s, k.tag⟩ : Key),
          (⟨k, none, k.dims.filter (· ∉ s)⟩ : PartialSumTask))) = id := rfl
    rw [hcomp, List.map_id]
    exact hfilter_nd
  · intro s hsub hne'
    simp only [iterSums, List.mem_map]
    exact ⟨s, List.mem_filter.mpr ⟨List.mem_sublists.mpr hsub, by simpa using hne'⟩, rfl⟩

/-- Witness for C7's amended theorem at `foo:a-b-c`. -/
theorem iterSums_strict_subsets_witness :
    (iterSums ⟨"foo", ["a", "b", "c"], none⟩).length = 2 ^ 3 - 1
    ∧ (⟨⟨"foo", ["a", "b"], none⟩,
        ⟨⟨"foo", ["a", "b", "c"], none⟩, none, ["c"]⟩⟩ : Key × PartialSumTask)
      ∈ iterSums ⟨"foo", ["a", "b", "c"], none⟩ :=
  ⟨(iterSums_strict_subsets ⟨"foo", ["a", "b", "c"], none⟩ (by decide) (by decide)).1,
   (iterSums_strict_subsets ⟨"foo", ["a", "b", "c"], none⟩ (by decide) (by decide)).2.2.2
     ["a", "b"] (by decide) (by decide)⟩

/-- C7 counterexample: for the 3-dimensional key `foo:a-b-c` (as in
`test_key.py` lines 28–29) `iter_sums` yields 7 entries, not
`2 ^ 3 − 2 = 6`: the empty subset is among the emitted subsets. -/
theorem iterSums_count_counterexample :
    (iterSums ⟨"foo", ["a", "b", "c"], none⟩).length = 7
    ∧ (7 : Nat) ≠ 2 ^ 3 - 2
    ∧ (iterSums ⟨"foo", ["a", "b", "c"], none⟩).any
        (fun e => e.1.dims.isEmpty) = true := by decide

/-! ## Units and Quantity binary operations (`genno/core/base.py`) -/

/-- A `pint` unit: a dimension signature together with a scale factor
relative to base units.  Two units are convertible exactly when their
dimension signatures agree; otherwise `pint` raises
`DimensionalityError` (the spec's *IncompatibleUnits*). -/
structure PintUnit where
  dim : List (String × Int)
  scale : ℚ
deriving DecidableEq, Repr

/-- `pint.get_application_registry().dimensionless`. -/
def dimensionless : PintUnit := ⟨[], 1⟩

inductive UnitsError where
  | incompatible : PintUnit → PintUnit → UnitsError
deriving DecidableEq, Repr

/-- `pint.Quantity(1.0, u).to(v).magnitude`: the factor that converts
magnitudes expressed in `u` into magnitudes expressed in `v`. -/
def convertFactor (u v : PintUnit) : Except UnitsError ℚ :=
  if u.dim = v.dim then .ok (u.scale / v.scale) else .error (.incompatible u v)

/-- Merge one dimension exponent into a signature. -/
def addExp : List (String × Int) → String → Int → List (String × Int)
  | [], s, e => if e = 0 then [] else [(s, e)]
  | (s', e') :: rest, s, e =>
    if s' = s then
      (if e' + e = 0 then rest else (s', e' + e) :: rest)
    else (s', e') :: addExp rest s e

def mulDim (d₁ d₂ : List (String × Int)) : List (String × Int) :=
  d₂.foldl (fun acc p => addExp acc p.1 p.2) d₁

/-- `operator.mul` on units. -/
def mulUnit (u v : PintUnit) : PintUnit := ⟨mulDim u.dim v.dim, u.scale * v.scale⟩

/-- `operator.truediv` on units. -/
def divUnit (u v : PintUnit) : PintUnit :=
  ⟨mulDim u.dim (v.dim.map (fun p => (p.1, -p.2))), u.scale / v.scale⟩

/-- The binary operator names handled by `BinaryOpsMixIn` (`add`, `sub`,
`mul`, `truediv`, `pow`; the `r*` variants are the same names with
`swap`). -/
inductive OpName where
  | add | sub | mul | truediv | pow
deriving DecidableEq, Repr

/-- The free-form `attrs` mapping of a Quantity with its reserved
`"_unit"` entry distinguished ("§3.2"). -/
structure Attrs where
  unitAttr : Option PintUnit
  extra : List (String × String)
deriving DecidableEq, Repr

/-- A Quantity: values, ordered dims, optional name and attrs
("§3.2"). -/
structure Quantity where
  values : List ℚ
  dims : List String
  name : Option String
  attrs : Attrs
deriving DecidableEq, Repr

/-- The `UnitsMixIn.units` property getter:
`self.attrs.setdefault("_unit", ...dimensionless)`.  Returns the units
together with the quantity as mutated by `setdefault`. -/
def unitsGet (q : Quantity) : PintUnit × Quantity :=
  match q.attrs.unitAttr with
  | some u => (u, q)
  | none =>
    (dimensionless, { q with attrs := { q.attrs with unitAttr := some dimensionless } })

/-- The effect of `attrs.setdefault("_unit", ...)` on a quantity. -/
def setdefaultUnit (q : Quantity) : Quantity :=
  { q with attrs := { q.attrs with unitAttr := some (q.attrs.unitAttr.getD dimensionless) } }

theorem unitsGet_eq (q : Quantity) :
    unitsGet q = (q.attrs.unitAttr.getD dimensionless, setdefaultUnit q) := by
  obtain ⟨v, d, n, ⟨u, e⟩⟩ := q
  cases u <;> simp [unitsGet, setdefaultUnit]

/-- `UnitsMixIn._binary_op_units`: determine result units and, for add
and sub, the factor aligning `other` to `self`.  For `pow` the method
returns `(self.units, 1.0)` without reading `other.units`.  Returns the
outcome together with both quantities as mutated by the `units`
property reads. -/
def binaryOpUnits (name : OpName) (obj other : Quantity) :
    Except UnitsError (PintUnit × ℚ) × Quantity × Quantity :=
  let p := unitsGet obj
  match name with
  | .pow => (.ok (p.1, 1), p.2, other)
  | .add | .sub =>
    let po := unitsGet other
    match convertFactor po.1 p.1 with
    | .ok f => (.ok (p.1, f), p.2, po.2)
    | .error e => (.error e, p.2, po.2)
  | .mul =>
    let po := unitsGet other
    (.ok (mulUnit p.1 po.1, 1), p.2, po.2)
  | .truediv =>
    let po := unitsGet other
    (.ok (divUnit p.1 po.1, 1), p.2, po.2)

/-- `super(type(obj), other).__mul__(factor)`: scale every magnitude of
`other` by `factor` (the plain pandas / xarray elementwise product, a
fresh object). -/
def scaleValues (q : Quantity) (f : ℚ) : Quantity :=
  { q with values := q.values.map (· * f) }

/-- `prepare_binary_op`: determine result units, scale `other` by the
alignment factor when it differs from 1, and order the operands
according to `swap`.  Returns the outcome along with both input
quantities as mutated by the units reads. -/
def prepareBinaryOp (obj other : Quantity) (name : OpName) (swap : Bool) :
    Except UnitsError (Quantity × Quantity × PintUnit × ℚ) × Quantity × Quantity :=
  match binaryOpUnits name obj other with
  | (.error e, o', t') => (.error e, o', t')
  | (.ok (ru, factor), o', t') =>
    let scaled := if factor ≠ 1 then scaleValues t' factor else t'
    let lr := if swap then (scaled, o') else (o', scaled)
    (.ok (lr.1, lr.2, ru, factor), o', t')

/-- Elementwise combination where an absent entry behaves as zero
(`+`/`−`, "§4.2" step 4). -/
def zipAll0 (f : ℚ → ℚ → ℚ) : List ℚ → List ℚ → List ℚ
  | [], [] => []
  | [], y :: ys => f 0 y :: zipAll0 f [] ys
  | x :: xs, [] => f x 0 :: zipAll0 f xs []
  | x :: xs, y :: ys => f x y :: zipAll0 f xs ys

/-- Elementwise power; the exponent is used through its numerator
(integer exponents, the only case exercised here). -/
def ratPow (b e : ℚ) : ℚ := b ^ e.num

def opScalarFn : OpName → ℚ → ℚ → ℚ
  | .add => (· + ·)
  | .sub => (· - ·)
  | .mul => (· * ·)
  | .truediv => (· / ·)
  | .pow => ratPow

/-- Modelled from the spec: broadcasting of a 0-dimensional operand
("§4.2" step 3); the concrete `_perform_binary_op` implementations
(`attrseries.py` / `sparsedataarray.py`) are not present in the source
tree. -/
def broadcastVals (l r : Quantity) : List ℚ × List ℚ :=
  if l.dims = [] ∧ r.dims ≠ [] then
    (List.replicate r.values.length (l.values.headD 0), r.values)
  else if r.dims = [] ∧ l.dims ≠ [] then
    (l.values, List.replicate l.values.length (r.values.headD 0))
  else (l.values, r.values)

/-- Modelled from the spec: `_perform_binary_op` of the Quantity
subclasses — align the operands, then combine elementwise; absent
entries behave as zero for `+`/`−` and as "no contribution" for the
multiplicative operations ("§4.2" step 4). -/
def performBinaryOp (name : OpName) (l r : Quantity) : List ℚ :=
  let p := broadcastVals l r
  match name with
  | .add | .sub => zipAll0 (opScalarFn name) p.1 p.2
  | _ => List.zipWith (opScalarFn name) p.1 p.2

def unionDims (d₁ d₂ : List String) : List String := d₁ ++ d₂.filter (· ∉ d₁)

/-- The method produced by `make_binary_op`, for a Quantity right
operand: prepare the operands, perform the operation, and `_keep` the
name (from `obj`) and the result units on the fresh result.  Returns
the result together with both operands as mutated by the operation. -/
def binOpQQ (name : OpName) (swap : Bool) (obj other : Quantity) :
    Except UnitsError Quantity × Quantity × Quantity :=
  match prepareBinaryOp obj other name swap with
  | (.error e, o', t') => (.error e, o', t')
  | (.ok (l, r, ru, _factor), o', t') =>
    let raw : Quantity :=
      { values := performBinaryOp name l r, dims := unionDims l.dims r.dims,
        name := none, attrs := ⟨none, []⟩ }
    (.ok { raw with name := o'.name, attrs := { raw.attrs with unitAttr := some ru } },
      o', t')

/-- `type(obj)(other)` for a scalar `other`: a dimensionless 0-d
quantity with no attrs. -/
def wrapScalar (s : ℚ) : Quantity := ⟨[s], [], none, ⟨none, []⟩⟩

/-- The method produced by `make_binary_op`, for a scalar right
operand: wrap the scalar as a Quantity, and propagate `obj.units` to
the result (`scalar_other` branch).  Returns the result together with
`obj` as mutated. -/
def binOpQS (name : OpName) (swap : Bool) (obj : Quantity) (s : ℚ) :
    Except UnitsError Quantity × Quantity :=
  match prepareBinaryOp obj (wrapScalar s) name swap with
  | (.error e, o', _) => (.error e, o')
  | (.ok (l, r, _ru, _factor), o', _) =>
    let raw : Quantity :=
      { values := performBinaryOp name l r, dims := unionDims l.dims r.dims,
        name := none, attrs := ⟨none, []⟩ }
    let p := unitsGet o'
    (.ok { raw with name := p.2.name, attrs := { raw.attrs with unitAttr := some p.1 } },
      p.2)

/-- Computation of `binOpQQ` for `add`/`sub` in terms of the units of
the operands. -/
theorem add_sub_core (name : OpName) (hname : name = OpName.add ∨ name = OpName.sub)
    (a b a' b' : Quantity) (au bu : PintUnit)
    (hga : unitsGet a = (au, a')) (hgb : unitsGet b = (bu, b'))
    (hva : a'.values = a.values) (hvb : b'.values = b.values)
    (hda : a'.dims = a.dims) (hdb : b'.dims = b.dims)
    (ha : a.dims ≠ []) (hb : b.dims ≠ []) :
    (bu.dim = au.dim →
      ∃ r, (binOpQQ name false a b).1 = Except.ok r
        ∧ r.attrs.unitAttr = some au
        ∧ r.values = zipAll0 (opScalarFn name) a.values
            (b.values.map (· * (bu.scale / au.scale))))
    ∧ (bu.dim ≠ au.dim →
      (binOpQQ name false a b).1 = Except.error (UnitsError.incompatible bu au)) := by
  constructor
  · intro h
    have hcf : convertFactor bu au = .ok (bu.scale / au.scale) := by
      simp [convertFactor, h]
    have hbou : binaryOpUnits name a b = (.ok (au, bu.scale / au.scale), a', b') := by
      rcases hname with rfl | rfl <;> simp [binaryOpUnits, hga, hgb, hcf]
    by_cases hf : bu.scale / au.scale = 1
    · have hprep : prepareBinaryOp a b name false = (.ok (a', b', au, 1), a', b') := by
        simp [prepareBinaryOp, hbou, hf]
      have hres : binOpQQ name false a b
          = (.ok { values := performBinaryOp name a' b',
                   dims := unionDims a'.dims b'.dims,
                   name := a'.name, attrs := ⟨some au, []⟩ }, a', b') := by
        simp [binOpQQ, hprep]
      refine ⟨_, by rw [hres], rfl, ?_⟩
      show performBinaryOp name a' b' = _
      have hbv : broadcastVals a' b' = (a.values, b.values) := by
        simp [broadcastVals, hda, hdb, hva, hvb, ha, hb]
      have hmap : b.values.map (· * (bu.scale / au.scale)) = b.values := by
        rw [hf]; simp
      rcases hname with rfl | rfl <;> simp [performBinaryOp, hbv, hmap]
    · have hprep : prepareBinaryOp a b name false
          = (.ok (a', scaleValues b' (bu.scale / au.scale), au, bu.scale / au.scale),
             a', b') := by
        simp [prepareBinaryOp, hbou, hf]
      have hres : binOpQQ name false a b
          = (.ok { values := performBinaryOp name a' (scaleValues b' (bu.scale / au.scale)),
                   dims := unionDims a'.dims (scaleValues b' (bu.scale / au.scale)).dims,
                   name := a'.name, attrs := ⟨some au, []⟩ }, a', b') := by
        simp [binOpQQ, hprep]
      refine ⟨_, by rw [hres], rfl, ?_⟩
      show performBinaryOp name a' (scaleValues b' (bu.scale / au.scale)) = _
      have hbv : broadcastVals a' (scaleValues b' (bu.scale / au.scale))
          = (a.values, b.values.map (· * (bu.scale / au.scale))) := by
        simp [broadcastVals, scaleValues, hda, hdb, hva, hvb, ha, hb]
      rcases hname with rfl | rfl <;> simp [performBinaryOp, hbv]
  · intro h
    have hcf : convertFactor bu au = .error (.incompatible bu au) := by
      simp [convertFactor, h]
    have hbou : binaryOpUnits name a b
        = (.error (.incompatible bu au), a', b') := by
      rcases hname with rfl | rfl <;> simp [binaryOpUnits, hga, hgb, hcf]
    simp [binOpQQ, prepareBinaryOp, hbou]

/-- C4: `a + b` and `a − b` between Quantities require
unit-compatibility; the right operand's magnitudes are scaled by the
conversion factor from its units to the left operand's units, and the
result carries the left operand's units; incompatible units fail with
*IncompatibleUnits*. -/
theorem add_sub_unit_conversion (a b : Quantity) (name : OpName)
    (hname : name = OpName.add ∨ name = OpName.sub)
    (ha : a.dims ≠ []) (hb : b.dims ≠ []) :
    ((unitsGet b).1.dim = (unitsGet a).1.dim →
      ∃ r, (binOpQQ name false a b).1 = Except.ok r
        ∧ r.attrs.unitAttr = some (unitsGet a).1
        ∧ r.values = zipAll0 (opScalarFn name) a.values
            (b.values.map (· * ((unitsGet b).1.scale / (unitsGet a).1.scale))))
    ∧ ((unitsGet b).1.dim ≠ (unitsGet a).1.dim →
      (binOpQQ name false a b).1
        = Except.error (UnitsError.incompatible (unitsGet b).1 (unitsGet a).1)) := by
  rw [unitsGet_eq a, unitsGet_eq b]
  exact add_sub_core name hname a b (setdefaultUnit a) (setdefaultUnit b)
    (a.attrs.unitAttr.getD dimensionless) (b.attrs.unitAttr.getD dimensionless)
    (unitsGet_eq a) (unitsGet_eq b) rfl rfl rfl rfl ha hb

/-- Concrete quantities for the C4 witness: 1 kg + (2 g converted). -/
def kgU : PintUnit := ⟨[("mass", 1)], 1⟩

def gramU : PintUnit := ⟨[("mass", 1)], 1 / 1000⟩

def aW : Quantity := ⟨[1, 3], ["x"], some "m", ⟨some kgU, []⟩⟩

def bW : Quantity := ⟨[2, 5], ["x"], none, ⟨some gramU, []⟩⟩

/-- Witness for C4: adding a gram-denominated quantity to a
kg-denominated one scales the right magnitudes by 1/1000 and keeps kg. -/
theorem add_sub_unit_conversion_witness :
    ∃ r, (binOpQQ OpName.add false aW bW).1 = Except.ok r
      ∧ r.attrs.unitAttr = some (unitsGet aW).1
      ∧ r.values = zipAll0 (opScalarFn OpName.add) aW.values
          (bW.values.map (· * ((unitsGet bW).1.scale / (unitsGet aW).1.scale))) :=
  (add_sub_unit_conversion aW bW OpName.add (Or.inl rfl) (by decide) (by decide)).1
    (by decide)

/-- C5 (amended): a scalar operand is wrapped as a dimensionless
Quantity and `obj.units` propagates to the result — for `mul`,
`truediv` and `pow` always, and for `add`/`sub` only when the units of
`q` are themselves dimensionless; otherwise `add`/`sub` with a scalar
fail with *IncompatibleUnits* because the wrapped operand cannot be
converted to `q.units`. -/
theorem scalar_op_units (q : Quantity) (s : ℚ) (name : OpName) (swap : Bool) :
    (name = OpName.mul ∨ name = OpName.truediv ∨ name = OpName.pow →
      ((binOpQS name swap q s).1.map (fun r => r.attrs.unitAttr))
        = Except.ok (some (unitsGet q).1))
    ∧ ((name = OpName.add ∨ name = OpName.sub) →
        ((unitsGet q).1.dim = [] →
          ((binOpQS name swap q s).1.map (fun r => r.attrs.unitAttr))
            = Except.ok (some (unitsGet q).1))
        ∧ ((unitsGet q).1.dim ≠ [] →
          (binOpQS name swap q s).1
            = Except.error (UnitsError.incompatible dimensionless (unitsGet q).1))) := by
  rw [unitsGet_eq q]
  have hq' : unitsGet (setdefaultUnit q)
      = (q.attrs.unitAttr.getD dimensionless, setdefaultUnit q) := by
    cases h : q.attrs.unitAttr <;> simp [unitsGet, setdefaultUnit, h]
  have hw : unitsGet (wrapScalar s)
      = (dimensionless, ⟨[s], [], none, ⟨some dimensionless, []⟩⟩) := by
    simp [unitsGet, wrapScalar]
  cases name with
  | mul =>
    refine ⟨fun _ => ?_, by rintro (h | h) <;> cases h⟩
    have hbou : binaryOpUnits OpName.mul q (wrapScalar s)
        = (.ok (mulUnit (q.attrs.unitAttr.getD dimensionless) dimensionless, 1),
           setdefaultUnit q, ⟨[s], [], none, ⟨some dimensionless, []⟩⟩) := by
      simp [binaryOpUnits, unitsGet_eq q, hw]
    cases swap <;> simp [binOpQS, prepareBinaryOp, hbou, hq', Except.map]
  | truediv =>
    refine ⟨fun _ => ?_, by rintro (h | h) <;> cases h⟩
    have hbou : binaryOpUnits OpName.truediv q (wrapScalar s)
        = (.ok (divUnit (q.attrs.unitAttr.getD dimensionless) dimensionless, 1),
           setdefaultUnit q, ⟨[s], [], none, ⟨some dimensionless, []⟩⟩) := by
      simp [binaryOpUnits, unitsGet_eq q, hw]
    cases swap <;> simp [binOpQS, prepareBinaryOp, hbou, hq', Except.map]
  | pow =>
    refine ⟨fun _ => ?_, by rintro (h | h) <;> cases h⟩
    have hbou : binaryOpUnits OpName.pow q (wrapScalar s)
        = (.ok (q.attrs.unitAttr.getD dimensionless, 1),
           setdefaultUnit q, wrapScalar s) := by
      simp [binaryOpUnits, unitsGet_eq q]
    cases swap <;> simp [binOpQS, prepareBinaryOp, hbou, hq', Except.map]
  | add =>
    refine ⟨(by rintro (h | h | h) <;> cases h), fun _ => ⟨fun hdim => ?_, fun hdim => ?_⟩⟩
    · have hdim' : (q.attrs.unitAttr.getD dimensionless).dim = [] := hdim
      have hcf : convertFactor dimensionless (q.attrs.unitAttr.getD dimensionless)
          = .ok (dimensionless.scale / (q.attrs.unitAttr.getD dimensionless).scale) := by
        unfold convertFactor
        rw [if_pos (show dimensionless.dim = (q.attrs.unitAttr.getD dimensionless).dim
          from hdim'.symm)]
      have hbou : binaryOpUnits OpName.add q (wrapScalar s)
          = (.ok (q.attrs.unitAttr.getD dimensionless,
                  dimensionless.scale / (q.attrs.unitAttr.getD dimensionless).scale),
             setdefaultUnit q, ⟨[s], [], none, ⟨some dimensionless, []⟩⟩) := by
        simp [binaryOpUnits, unitsGet_eq q, hw, hcf]
      by_cases hf : dimensionless.scale / (q.attrs.unitAttr.getD dimensionless).scale = 1 <;>
        cases swap <;>
          simp [binOpQS, prepareBinaryOp, hbou, hq', hf, Except.map]
    · have hdim' : ¬(q.attrs.unitAttr.getD dimensionless).dim = [] := hdim
      have hcf : convertFactor dimensionless (q.attrs.unitAttr.getD dimensionless)
          = .error (.incompatible dimensionless (q.attrs.unitAttr.getD dimensionless)) := by
        unfold convertFactor
        rw [if_neg (show ¬dimensionless.dim = (q.attrs.unitAttr.getD dimensionless).dim
          from fun hc => hdim' hc.symm)]
      have hbou : binaryOpUnits OpName.add q (wrapScalar s)
          = (.error (.incompatible dimensionless (q.attrs.unitAttr.getD dimensionless)),
             setdefaultUnit q, ⟨[s], [], none, ⟨some dimensionless, []⟩⟩) := by
        simp [binaryOpUnits, unitsGet_eq q, hw, hcf]
      simp [binOpQS, prepareBinaryOp, hbou]
  | sub =>
    refine ⟨(by rintro (h | h | h) <;> cases h), fun _ => ⟨fun hdim => ?_, fun hdim => ?_⟩⟩
    · have hdim' : (q.attrs.unitAttr.getD dimensionless).dim = [] := hdim
      have hcf : convertFactor dimensionless (q.attrs.unitAttr.getD dimensionless)
          = .ok (dimensionless.scale / (q.attrs.unitAttr.getD dimensionless).scale) := by
        unfold convertFactor
        rw [if_pos (show dimensionless.dim = (q.attrs.unitAttr.getD dimensionless).dim
          from hdim'.symm)]
      have hbou : binaryOpUnits OpName.sub q (wrapScalar s)
          = (.ok (q.attrs.unitAttr.getD dimensionless,
                  dimensionless.scale / (q.attrs.unitAttr.getD dimensionless).scale),
             setdefaultUnit q, ⟨[s], [], none, ⟨some dimensionless, []⟩⟩) := by
        simp [binaryOpUnits, unitsGet_eq q, hw, hcf]
      by_cases hf : dimensionless.scale / (q.attrs.unitAttr.getD dimensionless).scale = 1 <;>
        cases swap <;>
          simp [binOpQS, prepareBinaryOp, hbou, hq', hf, Except.map]
    · have hdim' : ¬(q.attrs.unitAttr.getD dimensionless).dim = [] := hdim
      have hcf : convertFactor dimensionless (q.attrs.unitAttr.getD dimensionless)
          = .error (.incompatible dimensionless (q.attrs.unitAttr.getD dimensionless)) := by
        unfold convertFactor
        rw [if_neg (show ¬dimensionless.dim = (q.attrs.unitAttr.getD dimensionless).dim
          from fun hc => hdim' hc.symm)]
      have hbou : binaryOpUnits OpName.sub q (wrapScalar s)
          = (.error (.incompatible dimensionless (q.attrs.unitAttr.getD dimensionless)),
             setdefaultUnit q, ⟨[s], [], none, ⟨some dimensionless, []⟩⟩) := by
        simp [binaryOpUnits, unitsGet_eq q, hw, hcf]
      simp [binOpQS, prepareBinaryOp, hbou]

/-- A quantity with units kg, for the C5 counterexample. -/
def qKg : Quantity := ⟨[3], ["x"], none, ⟨some ⟨[("mass", 1)], 1⟩, []⟩⟩

/-- C5 counterexample: `q + 2` for `q` in kg does not produce a result
with units `q.units`; the wrapped dimensionless operand cannot be
converted to kg, so the operation fails with *IncompatibleUnits*. -/
theorem scalar_add_units_counterexample :
    (binOpQS OpName.add false qKg 2).1
      = Except.error (UnitsError.incompatible dimensionless ⟨[("mass", 1)], 1⟩)
    ∧ qKg.attrs.unitAttr = some ⟨[("mass", 1)], 1⟩ := by decide

/-- Witness for C5's amended theorem: `q * 2` keeps the units of `q`. -/
theorem scalar_op_units_witness :
    ((binOpQS OpName.mul false qKg 2).1.map (fun r => r.attrs.unitAttr))
      = Except.ok (some (unitsGet qKg).1) :=
  (scalar_op_units qKg 2 OpName.mul false).1 (Or.inl rfl)

/-- C9 (amended): a binary operation between two Quantities leaves the
values, dims, name and non-unit attrs of both operands unchanged; the
only mutation is that reading an operand's `units` property inserts the
default dimensionless `"_unit"` entry into its `attrs` when absent
(`attrs.setdefault`).  For `pow` the right operand is not touched at
all. -/
theorem binOp_operand_mutation (a b : Quantity) (name : OpName) (swap : Bool) :
    (binOpQQ name swap a b).2.1 = setdefaultUnit a
    ∧ (binOpQQ name swap a b).2.2 = (if name = OpName.pow then b else setdefaultUnit b)
    ∧ (setdefaultUnit a).values = a.values
    ∧ (setdefaultUnit a).dims = a.dims
    ∧ (setdefaultUnit a).name = a.name
    ∧ (setdefaultUnit a).attrs.extra = a.attrs.extra
    ∧ (setdefaultUnit b).values = b.values
    ∧ (setdefaultUnit b).dims = b.dims
    ∧ (setdefaultUnit b).name = b.name
    ∧ (setdefaultUnit b).attrs.extra = b.attrs.extra := by
  have hops : (binOpQQ name swap a b).2.1 = setdefaultUnit a
      ∧ (binOpQQ name swap a b).2.2
        = (if name = OpName.pow then b else setdefaultUnit b) := by
    cases name with
    | pow =>
      simp [binOpQQ, prepareBinaryOp, binaryOpUnits, unitsGet_eq]
    | mul =>
      cases swap <;>
        simp [binOpQQ, prepareBinaryOp, binaryOpUnits, unitsGet_eq]
    | truediv =>
      cases swap <;>
        simp [binOpQQ, prepareBinaryOp, binaryOpUnits, unitsGet_eq]
    | add =>
      by_cases h : (b.attrs.unitAttr.getD dimensionless).dim
          = (a.attrs.unitAttr.getD dimensionless).dim <;>
        cases swap <;>
          simp [binOpQQ, prepareBinaryOp, binaryOpUnits, unitsGet_eq, convertFactor, h]
    | sub =>
      by_cases h : (b.attrs.unitAttr.getD dimensionless).dim
          = (a.attrs.unitAttr.getD dimensionless).dim <;>
        cases swap <;>
          simp [binOpQQ, prepareBinaryOp, binaryOpUnits, unitsGet_eq, convertFactor, h]
  exact ⟨hops.1, hops.2, rfl, rfl, rfl, rfl, rfl, rfl, rfl, rfl⟩

/-- A quantity with no `"_unit"` entry in its attrs, as produced by the
Quantity constructor when no `units` argument is given. -/
def qNoUnit : Quantity := ⟨[1], ["x"], none, ⟨none, []⟩⟩

/-- C9 counterexample: after `a * b` the left operand is *not* exactly
as before — its attrs gained a `"_unit": dimensionless` entry through
the `units` property's `attrs.setdefault`. -/
theorem binOp_mutates_attrs_counterexample :
    (binOpQQ OpName.mul false qNoUnit qNoUnit).2.1 ≠ qNoUnit
    ∧ (binOpQQ OpName.mul false qNoUnit qNoUnit).2.1.attrs.unitAttr = some dimensionless
    ∧ qNoUnit.attrs.unitAttr = none := by decide

/-! ## Graph, tasks and the Computer (`genno/core/computer.py`) -/

/-- A graph entry or Python object in a task position, after the dask
graph spec: a `tup` whose first element is a callable (`func`) is a
task; a `ref` (a `Key` or key-formatted `str`) refers to another graph
entry when present in the graph and is otherwise a literal; lists are
traversed elementwise; `quoted` is the `dask.core.quote` wrapper, which
is never traversed; anything else is a literal.  Callables are
identified by name and interpreted through an environment at
evaluation time. -/
inductive TaskE where
  | num : ℚ → TaskE
  | func : String → TaskE
  | ref : Key → TaskE
  | tup : List TaskE → TaskE
  | listE : List TaskE → TaskE
  | quoted : TaskE → TaskE
deriving Repr

mutual

def decT : (a b : TaskE) → Decidable (a = b)
  | .num x, .num y =>
    match decEq x y with
    | isTrue h => isTrue (by rw [h])
    | isFalse h => isFalse (by intro hc; injection hc with h2; exact h h2)
  | .num _, .func _ => isFalse (fun hc => TaskE.noConfusion hc)
  | .num _, .ref _ => isFalse (fun hc => TaskE.noConfusion hc)
  | .num _, .tup _ => isFalse (fun hc => TaskE.noConfusion hc)
  | .num _, .listE _ => isFalse (fun hc => TaskE.noConfusion hc)
  | .num _, .quoted _ => isFalse (fun hc => TaskE.noConfusion hc)
  | .func _, .num _ => isFalse (fun hc => TaskE.noConfusion hc)
  | .func x, .func y =>
    match decEq x y with
    | isTrue h => isTrue (by rw [h])
    | isFalse h => isFalse (by intro hc; injection hc with h2; exact h h2)
  | .func _, .ref _ => isFalse (fun hc => TaskE.noConfusion hc)
  | .func _, .tup _ => isFalse (fun hc => TaskE.noConfusion hc)
  | .func _, .listE _ => isFalse (fun hc => TaskE.noConfusion hc)
  | .func _, .quoted _ => isFalse (fun hc => TaskE.noConfusion hc)
  | .ref _, .num _ => isFalse (fun hc => TaskE.noConfusion hc)
  | .ref _, .func _ => isFalse (fun hc => TaskE.noConfusion hc)
  | .ref x, .ref y =>
    match decEq x y with
    | isTrue h => isTrue (by rw [h])
    | isFalse h => isFalse (by intro hc; injection hc with h2; exact h h2)
  | .ref _, .tup _ => isFalse (fun hc => TaskE.noConfusion hc)
  | .ref _, .listE _ => isFalse (fun hc => TaskE.noConfusion hc)
  | .ref _, .quoted _ => isFalse (fun hc => TaskE.noConfusion hc)
  | .tup _, .num _ => isFalse (fun hc => TaskE.noConfusion hc)
  | .tup _, .func _ => isFalse (fun hc => TaskE.noConfusion hc)
  | .tup _, .ref _ => isFalse (fun hc => TaskE.noConfusion hc)
  | .tup x, .tup y =>
    match decTL x y with
    | isTrue h => isTrue (by rw [h])
    | isFalse h => isFalse (by intro hc; injection hc with h2; exact h h2)
  | .tup _, .listE _ => isFalse (fun hc => TaskE.noConfusion hc)
  | .tup _, .quoted _ => isFalse (fun hc => TaskE.noConfusion hc)
  | .listE _, .num _ => isFalse (fun hc => TaskE.noConfusion hc)
  | .listE _, .func _ => isFalse (fun hc => TaskE.noConfusion hc)
  | .listE _, .ref _ => isFalse (fun hc => TaskE.noConfusion hc)
  | .listE _, .tup _ => isFalse (fun hc => TaskE.noConfusion hc)
  | .listE x, .listE y =>
    match decTL x y with
    | isTrue h => isTrue (by rw [h])
    | isFalse h => isFalse (by intro hc; injection hc with h2; exact h h2)
  | .listE _, .quoted _ => isFalse (fun hc => TaskE.noConfusion hc)
  | .quoted _, .num _ => isFalse (fun hc => TaskE.noConfusion hc)
  | .quoted _, .func _ => isFalse (fun hc => TaskE.noConfusion hc)
  | .quoted _, .ref _ => isFalse (fun hc => TaskE.noConfusion hc)
  | .quoted _, .tup _ => isFalse (fun hc => TaskE.noConfusion hc)
  | .quoted _, .listE _ => isFalse (fun hc => TaskE.noConfusion hc)
  | .quoted x, .quoted y =>
    match decT x y with
    | isTrue h => isTrue (by rw [h])
    | isFalse h => isFalse (by intro hc; injection hc with h2; exact h h2)

def decTL : (xs ys : List TaskE) → Decidable (xs = ys)
  | [], [] => isTrue rfl
  | [], _ :: _ => isFalse (fun hc => List.noConfusion hc)
  | _ :: _, [] => isFalse (fun hc => List.noConfusion hc)
  | x :: xs, y :: ys =>
    match decT x y with
    | isFalse h => isFalse (by intro hc; injection hc with h1 h2; exact h h1)
    | isTrue h1 =>
      match decTL xs ys with
      | isTrue h2 => isTrue (by rw [h1, h2])
      | isFalse h2 => isFalse (by intro hc; injection hc with h3 h4; exact h2 h4)

end

instance : DecidableEq TaskE := decT

instance : DecidableEq (List TaskE) := decTL

/-- `dask.core.istask`: a tuple whose first element is callable. -/
def istask : TaskE → Bool
  | .tup (.func _ :: _) => true
  | _ => false

mutual

/-- `dask.core.get_dependencies`: the keys referenced by an entry that
are present among `ks` (the keys of the graph).  Non-task tuples and
`quote`d values are not traversed. -/
def deps (ks : List Key) : TaskE → List Key
  | .ref k => if k ∈ ks then [k] else []
  | .tup (.func _ :: args) => depsList ks args
  | .tup _ => []
  | .listE es => depsList ks es
  | .num _ => []
  | .func _ => []
  | .quoted _ => []

def depsList (ks : List Key) : List TaskE → List Key
  | [] => []
  | e :: rest => deps ks e ++ depsList ks rest

end

/-- Association-list lookup, modelling Python dict access. -/
def lookupA {α β : Type} [DecidableEq α] : List (α × β) → α → Option β
  | [], _ => none
  | (a, b) :: rest, x => if a = x then some b else lookupA rest x

/-- Association-list insert-or-replace, modelling Python dict
assignment. -/
def upsertA {α β : Type} [DecidableEq α] : List (α × β) → α → β → List (α × β)
  | [], x, y => [(x, y)]
  | (a, b) :: rest, x, y =>
    if a = x then (x, y) :: rest else (a, b) :: upsertA rest x y

def eraseA {α β : Type} [DecidableEq α] : List (α × β) → α → List (α × β)
  | [], _ => []
  | (a, b) :: rest, x => if a = x then eraseA rest x else (a, b) :: eraseA rest x

/-- Lexicographic comparison of strings by code point, used to fix a
canonical order on dimension names. -/
def leChars : List Char → List Char → Bool
  | [], _ => true
  | _ :: _, [] => false
  | c :: cs, d :: ds =>
    if c.toNat < d.toNat then true
    else if d.toNat < c.toNat then false
    else leChars cs ds

/-- Insertion sort of dimension names: a canonical list representation
of `frozenset(dims)` for duplicate-free dims. -/
def insSorted (s : String) : List String → List String
  | [] => [s]
  | x :: xs => if leChars s.data x.data then s :: x :: xs else x :: insSorted s xs

def sortDims (l : List String) : List String := l.foldr insSorted []

/-- The unsorted-key index signature `(name, frozenset(dims), tag)`. -/
def unsortedSig (k : Key) : String × List String × Option String :=
  (k.name, sortDims k.dims, k.tag)

/-- Modelled from the spec: `genno/core/graph.py` is not in the source
tree (only `test_graph.py`).  A Graph is a mapping Key → Task plus a
full-key index `name → Key` (most recently inserted Key for the name)
and an unsorted-key index `(name, frozenset(dims), tag) → Key`, both
updated on every insert and delete ("§3.3"). -/
structure Graph where
  entries : List (Key × TaskE)
  fullIndex : List (String × Key)
  unsortedIndex : List ((String × List String × Option String) × Key)
deriving DecidableEq, Repr

namespace Graph

def lookup (g : Graph) (k : Key) : Option TaskE := lookupA g.entries k

def mem (g : Graph) (k : Key) : Bool := (g.lookup k).isSome

/-- `Graph.__setitem__`: store the task and update both indexes. -/
def insert (g : Graph) (k : Key) (t : TaskE) : Graph :=
  { entries := upsertA g.entries k t,
    fullIndex := upsertA g.fullIndex k.name k,
    unsortedIndex := upsertA g.unsortedIndex (unsortedSig k) k }

/-- `Graph.__delitem__` / `pop`: remove the entry and the index
entries that point to the removed key. -/
def erase (g : Graph) (k : Key) : Graph :=
  { entries := eraseA g.entries k,
    fullIndex := g.fullIndex.filter (fun p => p.2 ≠ k),
    unsortedIndex := g.unsortedIndex.filter (fun p => p.2 ≠ k) }

/-- `Graph.full_key`: the canonical full-dimensionality Key for a
name. -/
def fullKeyOf (g : Graph) (k : Key) : Option Key := lookupA g.fullIndex k.name

/-- `Graph.unsorted_key`: the stored Key with the same
`(name, set(dims), tag)`, in whatever dim order it was inserted. -/
def unsortedKeyOf (g : Graph) (k : Key) : Option Key :=
  lookupA g.unsortedIndex (unsortedSig k)

end Graph

/-- The exceptions that `Computer.add_single` / `add_queue` deal in.
Modelled from the spec: `genno/core/exceptions.py` is not in the source
tree; *KeyExists*, *MissingKey* and other errors are distinct kinds
("§7"). -/
inductive AddErr where
  | keyExists : Key → AddErr
  | missing : List TaskE → AddErr
  | otherExc : String → AddErr
deriving DecidableEq, Repr

/-- `Graph.unsorted_key(value) or Graph.full_key(value)`, the
resolution applied by `Computer.check_keys._check`. -/
def resolveRef (g : Graph) (k : Key) : Option Key :=
  (g.unsortedKeyOf k).orElse (fun _ => g.fullKeyOf k)

/-- `Computer.check_keys._check` on one element. -/
def checkOne (g : Graph) (pred : TaskE → Bool) (e : TaskE) : Option TaskE :=
  if pred e then some e
  else match e with
    | .ref k => (resolveRef g k).map .ref
    | _ => none

/-- `Computer.check_keys(*keys, predicate, action="raise")`: keep the
elements satisfying `pred`, resolve the rest through the unsorted-key
or full-key index, and raise `MissingKeyError` listing all the
unresolved elements if there is any. -/
def checkKeys (g : Graph) (pred : TaskE → Bool) (es : List TaskE) :
    Except AddErr (List TaskE) :=
  if (es.map (checkOne g pred)).all Option.isSome then
    .ok (es.filterMap (checkOne g pred))
  else
    .error (.missing (es.filter (fun e => (checkOne g pred e).isNone)))

/-- The predicate of `Computer._rewrite_comp`:
`lambda e: not isinstance(e, (Key, str))`. -/
def notKeyOrStr : TaskE → Bool
  | .ref _ => false
  | _ => true

def isCallable : TaskE → Bool
  | .func _ => true
  | _ => false

/-- The unpacking step of `Computer.add_single`: a length-1
`computation` whose sole element is not callable becomes that
element. -/
def unpackComp : List TaskE → TaskE
  | [e] => if isCallable e then .tup [e] else e
  | es => .tup es

/-- `Computer._rewrite_comp`: only a tuple or list `computation` is
checked, element by element; anything else is returned unchanged. -/
def rewriteComp (g : Graph) : TaskE → Except AddErr TaskE
  | .tup es => (checkKeys g notKeyOrStr es).map .tup
  | .listE es => (checkKeys g notKeyOrStr es).map .listE
  | e => .ok e

/-- The Computer: the graph, the optional default key and the
`_queue_fail` stack ("§3.4"). -/
structure Computer where
  graph : Graph
  defaultKey : Option Key
  queueFail : List Nat
deriving DecidableEq, Repr

/-- `Computer.add_single(key, *computation, strict=...)`. -/
def addSingle (c : Computer) (key : Key) (comp : List TaskE) (strict : Bool) :
    Except AddErr Computer :=
  let computation := unpackComp comp
  if strict then
    if c.graph.mem key then .error (.keyExists key)
    else
      match rewriteComp c.graph computation with
      | .error e => .error e
      | .ok c2 => .ok { c with graph := c.graph.insert key c2 }
  else .ok { c with graph := c.graph.insert key computation }

/-! ## The retry queue (`Computer.add_queue`) -/

/-- An `add_queue` `Item`: the (args, kwargs) payload, abstracted, and
the try `count`, initialised to 1. -/
structure QItem (α : Type) where
  data : α
  count : Nat
deriving DecidableEq, Repr

/-- `logging.ERROR`. -/
def ERROR_LEVEL : Nat := 40

/-- Modelled from the spec: the `except KeyError` clause of
`add_queue`; the exception hierarchy of `genno/core/exceptions.py` is
not in the source tree, and per "§4.7" the queue-retryable class is
*MissingKey* only. -/
def isRetryableKeyError : AddErr → Bool
  | .missing _ => true
  | _ => false

/-- The four ways one `add_queue` iteration can end: success; the item
re-appended for a retry; the item discarded with a log message at the
given level; an exception propagating out of the loop ("§4.6"). -/
inductive ItemOutcome (σ α : Type) where
  | succeeded : σ → List Key → ItemOutcome σ α
  | retried : QItem α → ItemOutcome σ α
  | discarded : AddErr → Nat → ItemOutcome σ α
  | raisedErr : AddErr → ItemOutcome σ α
deriving DecidableEq

/-- One iteration of the `add_queue` loop body on the popped `it`,
for an arbitrary `attempt` standing for the recursive `self.add`:
on success record the keys; on *MissingKey* re-append with the count
bumped while `count < max_tries`, and at `max_tries` log at level
`fail` and raise exactly when `fail >= logging.ERROR`; any other
exception propagates. -/
def processItem {σ α : Type} (attempt : σ → α → Except AddErr (σ × List Key))
    (maxTries fail : Nat) (st : σ) (it : QItem α) : ItemOutcome σ α :=
  match attempt st it.data with
  | .ok (st', ks) => .succeeded st' ks
  | .error e =>
    if isRetryableKeyError e then
      if it.count < maxTries then .retried ⟨it.data, it.count + 1⟩
      else if ERROR_LEVEL ≤ fail then .raisedErr e
      else .discarded e fail
    else .raisedErr e

/-- The `while len(_queue)` loop of `add_queue`, with the accumulated
added keys and the log of discarded items. -/
def addQueueLoop {σ α : Type} (attempt : σ → α → Except AddErr (σ × List Key))
    (maxTries fail : Nat) :
    Nat → σ → List (QItem α) → List Key → List (Nat × AddErr) →
    Except AddErr (σ × List Key × List (Nat × AddErr))
  | _, st, [], added, lg => .ok (st, added, lg)
  | 0, st, _ :: _, added, lg => .ok (st, added, lg)
  | fuel + 1, st, it :: rest, added, lg =>
    match processItem attempt maxTries fail st it with
    | .succeeded st' ks => addQueueLoop attempt maxTries fail fuel st' rest (added ++ ks) lg
    | .retried it' => addQueueLoop attempt maxTries fail fuel st (rest ++ [it']) added lg
    | .discarded e lvl => addQueueLoop attempt maxTries fail fuel st rest added (lg ++ [(lvl, e)])
    | .raisedErr e => .error e

/-- `Computer.add_queue(queue, max_tries, fail)`. -/
def addQueue {σ α : Type} (attempt : σ → α → Except AddErr (σ × List Key))
    (maxTries fail : Nat) (st : σ) (queue : List α) :
    Except AddErr (σ × List Key × List (Nat × AddErr)) :=
  addQueueLoop attempt maxTries fail (queue.length * (maxTries + 1) + 1) st
    (queue.map (⟨·, 1⟩)) [] []

/-! ## Evaluation (the synchronous `dask.get` scheduler) and culling -/

/-- An exception raised while executing a task, or by the machinery. -/
inductive TErr where
  | msg : String → TErr
  | keyError : Key → TErr
  | noFuel : TErr
deriving DecidableEq, Repr

/-- An evaluation failure: either still unattributed (`raw`, as raised
by a callable) or attributed to the graph key whose entry was being
executed, together with that entry. -/
inductive EvalErr where
  | raw : TErr → EvalErr
  | atKey : Key → TaskE → TErr → EvalErr
deriving DecidableEq, Repr

/-- The interpretation of callables: a named operator applied to the
evaluated arguments, possibly raising. -/
def Env : Type := String → List TaskE → Except TErr TaskE

mutual

/-- Evaluate the graph entry at `k`; the returned trace lists, in
order, the keys whose entries were executed as tasks.  Fuel only bounds
the recursion depth; it is charged on every step so that the function
is structurally recursive (and hence computable by `decide`). -/
def evalKeyF (env : Env) (dsk : List (Key × TaskE)) :
    Nat → Key → Except EvalErr TaskE × List Key
  | 0, _ => (.error (.raw .noFuel), [])
  | fuel + 1, k =>
    match lookupA dsk k with
    | none => (.error (.raw (.keyError k)), [])
    | some e =>
      match evalExprF env dsk fuel e with
      | (.ok v, tr) => (.ok v, (if istask e then [k] else []) ++ tr)
      | (.error (.raw te), tr) => (.error (.atKey k e te), tr)
      | (.error err, tr) => (.error err, tr)

/-- Evaluate a task expression (dask `_execute_task`): references to
graph keys are evaluated through the graph; tasks apply their callable
to the evaluated arguments; lists are evaluated elementwise; non-task
tuples, `quote`d values and literals evaluate to themselves. -/
def evalExprF (env : Env) (dsk : List (Key × TaskE)) :
    Nat → TaskE → Except EvalErr TaskE × List Key
  | 0, _ => (.error (.raw .noFuel), [])
  | fuel + 1, .ref k =>
    if (lookupA dsk k).isSome then evalKeyF env dsk fuel k else (.ok (.ref k), [])
  | fuel + 1, .tup (.func f :: args) =>
    (match evalArgsF env dsk fuel args with
     | (.ok vs, tr) =>
       (match env f vs with
        | .ok v => (.ok v, tr)
        | .error te => (.error (.raw te), tr))
     | (.error err, tr) => (.error err, tr))
  | fuel + 1, .listE es =>
    (match evalArgsF env dsk fuel es with
     | (.ok vs, tr) => (.ok (.listE vs), tr)
     | (.error err, tr) => (.error err, tr))
  | _ + 1, e => (.ok e, [])

def evalArgsF (env : Env) (dsk : List (Key × TaskE)) :
    Nat → List TaskE → Except EvalErr (List TaskE) × List Key
  | 0, _ => (.error (.raw .noFuel), [])
  | _ + 1, [] => (.ok [], [])
  | fuel + 1, e :: rest =>
    (match evalExprF env dsk fuel e with
     | (.ok v, tr) =>
       (match evalArgsF env dsk fuel rest with
        | (.ok vs, tr') => (.ok (v :: vs), tr ++ tr')
        | (.error err, tr') => (.error err, tr ++ tr'))
     | (.error err, tr) => (.error err, tr))

end

mutual

/-- The size of a task expression. -/
def sizeT : TaskE → Nat
  | .num _ => 1
  | .func _ => 1
  | .ref _ => 1
  | .tup es => 1 + sizeL es
  | .listE es => 1 + sizeL es
  | .quoted e => 1 + sizeT e

def sizeL : List TaskE → Nat
  | [] => 1
  | e :: rest => 1 + sizeT e + sizeL rest

end

/-- A fuel budget ample for the recursion depth of evaluating `dsk`. -/
def graphFuel (dsk : List (Key × TaskE)) : Nat :=
  (dsk.length + 1) * (dsk.foldl (fun n p => n + sizeT p.2) 1 + 1)

/-- The dependencies of the entry at `k` in `dsk`
(`get_dependencies(dsk, k)`). -/
def depsOfKey (dsk : List (Key × TaskE)) (k : Key) : List Key :=
  match lookupA dsk k with
  | some e => deps (dsk.map (·.1)) e
  | none => []

/-- The `if d not in seen: seen.add(d); new_work.append(d)` step of
`cull`, folded over the dependencies of one worked key. -/
def seenFold (p : List Key × List Key) (d : Key) : List Key × List Key :=
  if d ∈ p.1 then p else (p.1 ++ [d], p.2 ++ [d])

/-- One pass of the `dask.optimization.cull` work loop over `work`:
record each worked key's entry in `out`, and append its not-yet-`seen`
dependencies to `seen` and to the next work list. -/
def cullRound (dsk : List (Key × TaskE)) :
    List Key → List (Key × TaskE) → List Key →
    List Key × List (Key × TaskE) × List Key
  | seen, out, [] => (seen, out, [])
  | seen, out, k :: rest =>
    let out1 := upsertA out k ((lookupA dsk k).getD (.num 0))
    let ds := depsOfKey dsk k
    let p := ds.foldl seenFold (seen, [])
    let rec3 := cullRound dsk p.1 out1 rest
    (rec3.1, rec3.2.1, p.2 ++ rec3.2.2)

/-- The `while work` loop of `cull`. -/
def cullLoop (dsk : List (Key × TaskE)) :
    Nat → List Key → List (Key × TaskE) → List Key → List (Key × TaskE)
  | 0, _, out, _ => out
  | _ + 1, _, out, [] => out
  | fuel + 1, seen, out, work =>
    let r := cullRound dsk seen out work
    cullLoop dsk fuel r.1 r.2.1 r.2.2

/-- `dask.optimization.cull(dsk, key)`: the subgraph of entries needed
to compute `key`. -/
def cull (dsk : List (Key × TaskE)) (key : Key) : List (Key × TaskE) :=
  cullLoop dsk (dsk.length + 2) [] [] [key]

/-- The transitive dependency closure: `Reach dsk k j` holds when `j`
is needed to compute `k` (`j = k`, or a dependency of a reachable
key). -/
inductive Reach (dsk : List (Key × TaskE)) : Key → Key → Prop
  | refl (k : Key) : Reach dsk k k
  | head {k d j : Key} : d ∈ depsOfKey dsk k → Reach dsk d j → Reach dsk k j

/-! ## `Computer.get` -/

/-- The outcomes of `Computer.get`: the `ValueError` for a missing
default key; `MissingKeyError` from `check_keys` (raised unwrapped);
and `ComputationError`, carrying the failing key, the task's printable
form and the original exception. -/
inductive GetErr where
  | valueError : String → GetErr
  | missingKey : List TaskE → GetErr
  | computation : Option Key → Option TaskE → TErr → GetErr
deriving DecidableEq, Repr

/-- Wrap an evaluation failure as `ComputationError(exc)`; the failing
key and printable task come with the exception (in Python, recovered
from the traceback by `ComputationError._format`; modelled from the
spec, `exceptions.py` being absent from the source tree). -/
def wrapCE : EvalErr → GetErr
  | .raw te => .computation none none te
  | .atKey k t te => .computation (some k) (some t) te

/-- The graph key `"config"`. -/
def configKey : Key := ⟨"config", [], none⟩

/-- `self.graph["config"] = dask.core.quote(self.graph.get("config",
dict()))`: protect the config sub-dict from the scheduler (the empty
dict is modelled as an empty list). -/
def protectConfig (g : Graph) : Graph :=
  match g.lookup configKey with
  | some e => g.insert configKey (.quoted e)
  | none => g.insert configKey (.quoted (.listE []))

/-- The `finally` clause:
`self.graph["config"] = self.graph["config"][0].data`. -/
def restoreConfig (g : Graph) : Graph :=
  match g.lookup configKey with
  | some (.quoted e) => g.insert configKey e
  | _ => g

/-- The body of `Computer.get` after key resolution: protect config,
cull the graph to `k`, run the scheduler, wrap any exception in
*ComputationError*, and restore config. -/
def getRun (c : Computer) (env : Env) (k : Key) :
    Except GetErr TaskE × List Key × Computer :=
  let gP := protectConfig c.graph
  let dsk := cull gP.entries k
  let r := evalKeyF env dsk (graphFuel dsk) k
  let cR : Computer := { c with graph := restoreConfig gP }
  match r with
  | (.ok v, tr) => (.ok v, tr, cR)
  | (.error e, tr) => (.error (wrapCE e), tr, cR)

/-- `Computer.get(key)`: with no key, use `default_key` or raise
`ValueError`; otherwise resolve the key through `check_keys` (a
failure raises `MissingKeyError`, unwrapped) and run. -/
def getC (c : Computer) (env : Env) (key? : Option Key) :
    Except GetErr TaskE × List Key × Computer :=
  match key? with
  | none =>
    match c.defaultKey with
    | none => (.error (.valueError "no default reporting key set"), [], c)
    | some k => getRun c env k
  | some k0 =>
    match checkKeys c.graph (fun _ => false) [.ref k0] with
    | .error (.missing es) => (.error (.missingKey es), [], c)
    | .error _ => (.error (.valueError "unexpected"), [], c)
    | .ok [.ref k] => getRun c env k
    | .ok _ => (.error (.valueError "unexpected"), [], c)

/-- C10: `Computer.get()` with no key argument and `default_key`
unset raises `ValueError` before culling or evaluating any task: no
task is invoked and the Computer, its graph included, is returned
unchanged. -/
theorem get_no_default_raises_valueerror (c : Computer) (env : Env)
    (h : c.defaultKey = none) :
    getC c env none = (.error (.valueError "no default reporting key set"), [], c) := by
  simp [getC, h]

/-- An empty Computer and a trivial operator environment. -/
def cEmpty : Computer := ⟨⟨[], [], []⟩, none, [ERROR_LEVEL]⟩

def envZero : Env := fun _ _ => .ok (.num 0)

/-- Witness for C10 on the empty Computer. -/
theorem get_no_default_raises_valueerror_witness :
    getC cEmpty envZero none
      = (.error (.valueError "no default reporting key set"), [], cEmpty) :=
  get_no_default_raises_valueerror cEmpty envZero rfl

/-- C3: an `add_queue` item is re-appended for retry iff the add
attempt raises *MissingKey* and the item has been tried fewer than
`max_tries` times (and then it goes to the back of the queue with its
count bumped); any other exception propagates immediately out of the
loop; at `max_tries` the *MissingKey* failure is raised when
`fail ≥ logging.ERROR` and otherwise the item is discarded with a log
message at level `fail`. -/
theorem addQueue_retry_policy {σ α : Type}
    (attempt : σ → α → Except AddErr (σ × List Key)) (maxTries fail : Nat)
    (st : σ) (it : QItem α) (rest : List (QItem α)) (fuel : Nat)
    (added : List Key) (lg : List (Nat × AddErr)) :
    ((∃ it', processItem attempt maxTries fail st it = .retried it')
      ↔ ((∃ ks, attempt st it.data = .error (.missing ks)) ∧ it.count < maxTries))
    ∧ (∀ it', processItem attempt maxTries fail st it = .retried it' →
        it' = ⟨it.data, it.count + 1⟩
        ∧ addQueueLoop attempt maxTries fail (fuel + 1) st (it :: rest) added lg
          = addQueueLoop attempt maxTries fail fuel st (rest ++ [it']) added lg)
    ∧ (∀ e, attempt st it.data = .error e → isRetryableKeyError e = false →
        addQueueLoop attempt maxTries fail (fuel + 1) st (it :: rest) added lg
          = .error e)
    ∧ (∀ ks, attempt st it.data = .error (.missing ks) → maxTries ≤ it.count →
        (ERROR_LEVEL ≤ fail →
          addQueueLoop attempt maxTries fail (fuel + 1) st (it :: rest) added lg
            = .error (.missing ks))
        ∧ (fail < ERROR_LEVEL →
          addQueueLoop attempt maxTries fail (fuel + 1) st (it :: rest) added lg
            = addQueueLoop attempt maxTries fail fuel st rest added
                (lg ++ [(fail, .missing ks)]))) := by
  refine ⟨⟨?_, ?_⟩, ?_, ?_, ?_⟩
  · rintro ⟨it', hit⟩
    unfold processItem at hit
    cases hatt : attempt st it.data with
    | ok p => rw [hatt] at hit; cases hit
    | error e =>
      rw [hatt] at hit
      cases e with
      | missing ks =>
        simp only [isRetryableKeyError, if_true] at hit
        by_cases hc : it.count < maxTries
        · exact ⟨⟨ks, rfl⟩, hc⟩
        · simp only [hc, if_false] at hit
          by_cases herr : ERROR_LEVEL ≤ fail <;> simp [herr] at hit
      | keyExists k => simp [isRetryableKeyError] at hit
      | otherExc m => simp [isRetryableKeyError] at hit
  · rintro ⟨⟨ks, hatt⟩, hc⟩
    exact ⟨⟨it.data, it.count + 1⟩, by simp [processItem, hatt, isRetryableKeyError, hc]⟩
  · intro it' hit
    have hbump : it' = ⟨it.data, it.count + 1⟩ := by
      unfold processItem at hit
      cases hatt : attempt st it.data with
      | ok p => rw [hatt] at hit; cases hit
      | error e =>
        rw [hatt] at hit
        cases e with
        | missing ks =>
          simp only [isRetryableKeyError, if_true] at hit
          by_cases hc : it.count < maxTries
          · simp only [hc, if_true, ItemOutcome.retried.injEq] at hit
            exact hit.symm
          · simp only [hc, if_false] at hit
            by_cases herr : ERROR_LEVEL ≤ fail <;> simp [herr] at hit
        | keyExists k => simp [isRetryableKeyError] at hit
        | otherExc m => simp [isRetryableKeyError] at hit
    exact ⟨hbump, by rw [addQueueLoop, hit]⟩
  · intro e hatt hnr
    have hp : processItem attempt maxTries fail st it = .raisedErr e := by
      simp [processItem, hatt, hnr]
    rw [addQueueLoop, hp]
  · intro ks hatt hmax
    have hnc : ¬it.count < maxTries := by omega
    constructor
    · intro herr
      have hp : processItem attempt maxTries fail st it = .raisedErr (.missing ks) := by
        simp [processItem, hatt, isRetryableKeyError, hnc, herr]
      rw [addQueueLoop, hp]
    · intro hlt
      have herr : ¬ERROR_LEVEL ≤ fail := by omega
      have hp : processItem attempt maxTries fail st it
          = .discarded (.missing ks) fail := by
        simp [processItem, hatt, isRetryableKeyError, hnc, herr]
      rw [addQueueLoop, hp]

/-- Witness for C3: an attempt that always raises *MissingKey*, an
item already tried once with `max_tries = 2`. -/
def attemptW : Nat → Nat → Except AddErr (Nat × List Key) :=
  fun _ a => if a = 0 then .error (.missing [.ref ⟨"a", [], none⟩]) else .ok (0, [])

theorem addQueue_retry_policy_witness :
    ((∃ it', processItem attemptW 2 40 7 ⟨0, 1⟩ = .retried it')
      ↔ ((∃ ks, attemptW 7 (QItem.data ⟨0, 1⟩) = .error (.missing ks))
          ∧ QItem.count (α := Nat) ⟨0, 1⟩ < 2))
    ∧ (∀ it', processItem attemptW 2 40 7 ⟨0, 1⟩ = .retried it' →
        it' = ⟨0, 2⟩
        ∧ addQueueLoop attemptW 2 40 (5 + 1) 7 (⟨0, 1⟩ :: []) [] []
          = addQueueLoop attemptW 2 40 5 7 ([] ++ [it']) [] []) := by
  have h := addQueue_retry_policy attemptW 2 40 7 ⟨0, 1⟩ [] 5 [] []
  exact ⟨h.1, fun it' hit => ⟨by
    have := (h.2.1 it' hit).1
    simpa using this, (h.2.1 it' hit).2⟩⟩

/-! ## The strict contract of `add_single` -/

theorem checkOne_ref (g : Graph) (k : Key) :
    checkOne g notKeyOrStr (.ref k) = (resolveRef g k).map .ref := by
  simp [checkOne, notKeyOrStr]

theorem checkOne_nonref (g : Graph) {e : TaskE} (h : notKeyOrStr e = true) :
    checkOne g notKeyOrStr e = some e := by
  simp [checkOne, h]

/-- Whether an element's reference, if it is one, resolves through the
graph's indexes. -/
def refResolves (g : Graph) : TaskE → Bool
  | .ref k => (resolveRef g k).isSome
  | _ => true

/-- The canonical rewriting of one computation element. -/
def rewriteElem (g : Graph) : TaskE → TaskE
  | .ref k => .ref ((resolveRef g k).getD k)
  | e => e

theorem checkKeys_all_resolve (g : Graph) (es : List TaskE)
    (hall0 : es.all (refResolves g) = true) :
    checkKeys g notKeyOrStr es = .ok (es.map (rewriteElem g)) := by
  have h : ∀ k, TaskE.ref k ∈ es → (resolveRef g k).isSome := by
    intro k hk
    have := List.all_eq_true.mp hall0 _ hk
    simpa [refResolves] using this
  unfold checkKeys
  have hall : (es.map (checkOne g notKeyOrStr)).all Option.isSome = true := by
    rw [List.all_eq_true]
    intro o ho
    obtain ⟨e, he, rfl⟩ := List.mem_map.mp ho
    cases e with
    | ref k =>
      rw [checkOne_ref]
      cases hr : resolveRef g k with
      | none => exact absurd (h k he) (by simp [hr])
      | some k' => simp
    | num x => simp [checkOne, notKeyOrStr]
    | func x => simp [checkOne, notKeyOrStr]
    | tup x => simp [checkOne, notKeyOrStr]
    | listE x => simp [checkOne, notKeyOrStr]
    | quoted x => simp [checkOne, notKeyOrStr]
  rw [if_pos hall]
  congr 1
  clear hall0 hall
  induction es with
  | nil => simp
  | cons e rest ih =>
    have hrest : ∀ k, TaskE.ref k ∈ rest → (resolveRef g k).isSome :=
      fun k hk => h k (List.mem_cons_of_mem _ hk)
    have ihr := ih hrest
    cases e with
    | ref k =>
      cases hr : resolveRef g k with
      | none => exact absurd (h k (List.mem_cons_self _ _)) (by simp [hr])
      | some k' =>
        simp only [List.filterMap_cons, List.map_cons, checkOne_ref, hr, Option.map_some]
        rw [ihr]
        simp [rewriteElem, hr]
    | num x => simp [List.filterMap_cons, checkOne, notKeyOrStr, rewriteElem, ihr]
    | func x => simp [List.filterMap_cons, checkOne, notKeyOrStr, rewriteElem, ihr]
    | tup x => simp [List.filterMap_cons, checkOne, notKeyOrStr, rewriteElem, ihr]
    | listE x => simp [List.filterMap_cons, checkOne, notKeyOrStr, rewriteElem, ihr]
    | quoted x => simp [List.filterMap_cons, checkOne, notKeyOrStr, rewriteElem, ihr]

/-- The unresolved references of a computation, as they were written. -/
def unresolvedRefs (g : Graph) (es : List TaskE) : List TaskE :=
  es.filter (fun e => match e with
    | .ref k => (resolveRef g k).isNone
    | _ => false)

theorem checkKeys_some_missing (g : Graph) (es : List TaskE)
    (hall0 : es.all (refResolves g) = false) :
    checkKeys g notKeyOrStr es = .error (.missing (unresolvedRefs g es)) := by
  have h : ∃ k, TaskE.ref k ∈ es ∧ resolveRef g k = none := by
    have hne : ¬(∀ e ∈ es, refResolves g e = true) := by
      intro hc
      rw [← List.all_eq_true] at hc
      rw [hall0] at hc
      cases hc
    push_neg at hne
    obtain ⟨e, he, hpe⟩ := hne
    cases e with
    | ref k =>
      refine ⟨k, he, ?_⟩
      cases hr : resolveRef g k with
      | none => rfl
      | some k' => exact absurd (by simp [refResolves, hr]) hpe
    | num x => exact absurd rfl hpe
    | func x => exact absurd rfl hpe
    | tup x => exact absurd rfl hpe
    | listE x => exact absurd rfl hpe
    | quoted x => exact absurd rfl hpe
  have hnall : ¬((es.map (checkOne g notKeyOrStr)).all Option.isSome = true) := by
    intro hall
    obtain ⟨k, hk, hr⟩ := h
    have := List.all_eq_true.mp hall _ (List.mem_map.mpr ⟨_, hk, rfl⟩)
    rw [checkOne_ref, hr] at this
    cases this
  have hfe : es.filter (fun e => (checkOne g notKeyOrStr e).isNone)
      = unresolvedRefs g es := by
    unfold unresolvedRefs
    apply List.filter_congr
    intro e he
    cases e with
    | ref k => rw [checkOne_ref]; cases hr : resolveRef g k <;> simp [hr]
    | num x => simp [checkOne, notKeyOrStr]
    | func x => simp [checkOne, notKeyOrStr]
    | tup x => simp [checkOne, notKeyOrStr]
    | listE x => simp [checkOne, notKeyOrStr]
    | quoted x => simp [checkOne, notKeyOrStr]
  unfold checkKeys
  rw [if_neg hnall, hfe]

/-- C2 (amended): `add_single(key, *computation, strict=True)` raises
*KeyExists* when `key` is already a graph entry; otherwise, when the
(possibly unpacked) computation is a tuple, its *top-level* `Key`/`str`
elements must resolve through the unsorted-key or full-key index — on
success the stored task has exactly those elements rewritten to the
canonical stored keys, and if any of them does not resolve a
*MissingKey* error lists all the unresolved ones and the graph is left
unchanged.  (References nested deeper, or a non-tuple computation such
as a single alias key, are stored without any check.) -/
theorem addSingle_strict_contract (c : Computer) (key : Key) (comp : List TaskE) :
    (c.graph.mem key = true → addSingle c key comp true = .error (.keyExists key))
    ∧ (c.graph.mem key = false →
        (∀ es, unpackComp comp = .tup es →
          ((es.all (refResolves c.graph) = true) →
            addSingle c key comp true
              = .ok { c with graph := c.graph.insert key (.tup (es.map (rewriteElem c.graph))) })
          ∧ ((es.all (refResolves c.graph) = false) →
            addSingle c key comp true
              = .error (.missing (unresolvedRefs c.graph es))))
        ∧ (∀ es, unpackComp comp = .listE es →
          ((es.all (refResolves c.graph) = true) →
            addSingle c key comp true
              = .ok { c with graph := c.graph.insert key (.listE (es.map (rewriteElem c.graph))) })
          ∧ ((es.all (refResolves c.graph) = false) →
            addSingle c key comp true
              = .error (.missing (unresolvedRefs c.graph es))))
        ∧ (∀ e, unpackComp comp = e → (∀ es, e ≠ .tup es) → (∀ es, e ≠ .listE es) →
            addSingle c key comp true
              = .ok { c with graph := c.graph.insert key e })) := by
  refine ⟨?_, ?_⟩
  · intro hmem
    simp [addSingle, hmem]
  · intro hmem
    refine ⟨?_, ?_, ?_⟩
    · intro es hes
      constructor
      · intro hall
        simp [addSingle, hmem, hes, rewriteComp, Except.map,
          checkKeys_all_resolve c.graph es hall]
      · intro hsome
        simp [addSingle, hmem, hes, rewriteComp, Except.map,
          checkKeys_some_missing c.graph es hsome]
    · intro es hes
      constructor
      · intro hall
        simp [addSingle, hmem, hes, rewriteComp, Except.map,
          checkKeys_all_resolve c.graph es hall]
      · intro hsome
        simp [addSingle, hmem, hes, rewriteComp, Except.map,
          checkKeys_some_missing c.graph es hsome]
    · intro e he hnt hnl
      have hrw : rewriteComp c.graph e = .ok e := by
        cases e with
        | tup es => exact absurd rfl (hnt es)
        | listE es => exact absurd rfl (hnl es)
        | num x => rfl
        | func x => rfl
        | ref k => rfl
        | quoted x => rfl
      simp [addSingle, hmem, he, hrw]

/-- A Computer whose graph holds `foo:y-x`, for the C2 witness and
counterexample. -/
def cFoo : Computer :=
  ⟨Graph.insert ⟨[], [], []⟩ ⟨"foo", ["y", "x"], none⟩ (.num 1), none, [ERROR_LEVEL]⟩

/-- Witness for C2: a strict tuple add whose reference `foo:x-y` is
rewritten to the stored dim order `foo:y-x`, and a strict list add
whose sole reference is rewritten the same way. -/
theorem addSingle_strict_contract_witness :
    (addSingle cFoo ⟨"b", [], none⟩ [.func "f", .ref ⟨"foo", ["x", "y"], none⟩] true
      = .ok { cFoo with
          graph := cFoo.graph.insert ⟨"b", [], none⟩
            (.tup ([TaskE.func "f", .ref ⟨"foo", ["x", "y"], none⟩].map
              (rewriteElem cFoo.graph))) })
    ∧ ([TaskE.func "f", .ref ⟨"foo", ["x", "y"], none⟩].map (rewriteElem cFoo.graph))
      = [TaskE.func "f", .ref ⟨"foo", ["y", "x"], none⟩]
    ∧ (addSingle cFoo ⟨"c", [], none⟩ [.listE [.ref ⟨"foo", ["x", "y"], none⟩]] true
      = .ok { cFoo with
          graph := cFoo.graph.insert ⟨"c", [], none⟩
            (.listE ([TaskE.ref ⟨"foo", ["x", "y"], none⟩].map
              (rewriteElem cFoo.graph))) }) :=
  ⟨(((addSingle_strict_contract cFoo ⟨"b", [], none⟩
      [.func "f", .ref ⟨"foo", ["x", "y"], none⟩]).2 (by decide)).1
      [.func "f", .ref ⟨"foo", ["x", "y"], none⟩] rfl).1 (by decide),
   by decide,
   (((addSingle_strict_contract cFoo ⟨"c", [], none⟩
      [.listE [.ref ⟨"foo", ["x", "y"], none⟩]]).2 (by decide)).2.1
      [.ref ⟨"foo", ["x", "y"], none⟩] rfl).1 (by decide)⟩

def exceptIsOk {ε α : Type} : Except ε α → Bool
  | .ok _ => true
  | .error _ => false

/-- C2 counterexample: `add_single("b", "nope", strict=True)` — an
alias to a key that resolves through neither index — succeeds and
stores the unchecked alias, instead of raising *MissingKey*: the
length-1 non-callable computation is unpacked before `_rewrite_comp`,
which checks only tuples and lists. -/
theorem addSingle_strict_alias_counterexample :
    exceptIsOk (addSingle cFoo ⟨"b", [], none⟩ [.ref ⟨"nope", [], none⟩] true) = true
    ∧ resolveRef cFoo.graph ⟨"nope", [], none⟩ = none
    ∧ (addSingle cFoo ⟨"b", [], none⟩ [.ref ⟨"nope", [], none⟩] true).toOption.map
        (fun c' => c'.graph.lookup ⟨"b", [], none⟩)
      = some (some (.ref ⟨"nope", [], none⟩)) := by decide

/-! ## Error attribution during evaluation (for `ComputationError`) -/

mutual

/-- An evaluation error attributed to key `j` with task `t` really
comes from `j`'s entry: the graph stores `t` at `j`. -/
theorem evalKey_atKey (env : Env) (dsk : List (Key × TaskE)) :
    ∀ (fuel : Nat) (k j : Key) (t : TaskE) (te : TErr) (tr : List Key),
      evalKeyF env dsk fuel k = (.error (.atKey j t te), tr) →
      lookupA dsk j = some t
  | 0, k, j, t, te, tr => by
    intro h
    simp [evalKeyF] at h
  | fuel + 1, k, j, t, te, tr => by
    intro h
    cases hl : lookupA dsk k with
    | none => simp [evalKeyF, hl] at h
    | some e =>
      cases he : evalExprF env dsk fuel e with
      | mk res tr' =>
        cases res with
        | ok v => simp [evalKeyF, hl, he] at h
        | error err =>
          cases err with
          | raw te' =>
            simp only [evalKeyF, hl, he, Prod.mk.injEq, Except.error.injEq,
              EvalErr.atKey.injEq] at h
            obtain ⟨⟨hj, ht, _⟩, _⟩ := h
            rw [← hj, ← ht]
            exact hl
          | atKey j' t' te' =>
            simp only [evalKeyF, hl, he, Prod.mk.injEq, Except.error.injEq,
              EvalErr.atKey.injEq] at h
            obtain ⟨⟨hj, ht, hte⟩, _⟩ := h
            exact hj ▸ ht ▸ evalExpr_atKey env dsk fuel e j' t' te' tr' he

theorem evalExpr_atKey (env : Env) (dsk : List (Key × TaskE)) :
    ∀ (fuel : Nat) (e : TaskE) (j : Key) (t : TaskE) (te : TErr) (tr : List Key),
      evalExprF env dsk fuel e = (.error (.atKey j t te), tr) →
      lookupA dsk j = some t
  | 0, e, j, t, te, tr => by intro h; simp [evalExprF] at h
  | fuel + 1, .ref k, j, t, te, tr => by
    intro h
    rw [evalExprF] at h
    by_cases hk : (lookupA dsk k).isSome
    · rw [if_pos hk] at h
      exact evalKey_atKey env dsk fuel k j t te tr h
    · rw [if_neg hk] at h
      simp at h
  | fuel + 1, .tup (.func f :: args), j, t, te, tr => by
    intro h
    cases ha : evalArgsF env dsk fuel args with
    | mk res tr' =>
      cases res with
      | ok vs =>
        cases hf : env f vs with
        | ok v => simp [evalExprF, ha, hf] at h
        | error te' => simp [evalExprF, ha, hf] at h
      | error err =>
        simp only [evalExprF, ha, Prod.mk.injEq, Except.error.injEq] at h
        obtain ⟨hinj, _⟩ := h
        exact evalArgs_atKey env dsk fuel args j t te tr' (hinj ▸ ha)
  | fuel + 1, .listE es, j, t, te, tr => by
    intro h
    cases ha : evalArgsF env dsk fuel es with
    | mk res tr' =>
      cases res with
      | ok vs => simp [evalExprF, ha] at h
      | error err =>
        simp only [evalExprF, ha, Prod.mk.injEq, Except.error.injEq] at h
        obtain ⟨hinj, _⟩ := h
        exact evalArgs_atKey env dsk fuel es j t te tr' (hinj ▸ ha)
  | fuel + 1, .num x, j, t, te, tr => by intro h; simp [evalExprF] at h
  | fuel + 1, .func x, j, t, te, tr => by intro h; simp [evalExprF] at h
  | fuel + 1, .tup [], j, t, te, tr => by intro h; simp [evalExprF] at h
  | fuel + 1, .tup (.num x :: rest), j, t, te, tr => by intro h; simp [evalExprF] at h
  | fuel + 1, .tup (.ref r :: rest), j, t, te, tr => by intro h; simp [evalExprF] at h
  | fuel + 1, .tup (.tup x :: rest), j, t, te, tr => by intro h; simp [evalExprF] at h
  | fuel + 1, .tup (.listE x :: rest), j, t, te, tr => by intro h; simp [evalExprF] at h
  | fuel + 1, .tup (.quoted x :: rest), j, t, te, tr => by intro h; simp [evalExprF] at h
  | fuel + 1, .quoted x, j, t, te, tr => by intro h; simp [evalExprF] at h

theorem evalArgs_atKey (env : Env) (dsk : List (Key × TaskE)) :
    ∀ (fuel : Nat) (es : List TaskE) (j : Key) (t : TaskE) (te : TErr) (tr : List Key),
      evalArgsF env dsk fuel es = (.error (.atKey j t te), tr) →
      lookupA dsk j = some t
  | 0, es, j, t, te, tr => by intro h; simp [evalArgsF] at h
  | fuel + 1, [], j, t, te, tr => by intro h; simp [evalArgsF] at h
  | fuel + 1, e :: rest, j, t, te, tr => by
    intro h
    cases he : evalExprF env dsk fuel e with
    | mk res tr1 =>
      cases res with
      | ok v =>
        cases hr : evalArgsF env dsk fuel rest with
        | mk res2 tr2 =>
          cases res2 with
          | ok vs => simp [evalArgsF, he, hr] at h
          | error err =>
            simp only [evalArgsF, he, hr, Prod.mk.injEq, Except.error.injEq] at h
            obtain ⟨hinj, _⟩ := h
            exact evalArgs_atKey env dsk fuel rest j t te tr2 (hinj ▸ hr)
      | error err =>
        simp only [evalArgsF, he, Prod.mk.injEq, Except.error.injEq] at h
        obtain ⟨hinj, _⟩ := h
        exact evalExpr_atKey env dsk fuel e j t te tr1 (hinj ▸ he)

end

/-! ## Lemmas about association lists and dependencies -/

def keysOf (l : List (Key × TaskE)) : List Key := l.map (·.1)

theorem lookupA_isSome_iff {α β : Type} [DecidableEq α] :
    ∀ (l : List (α × β)) (x : α), (lookupA l x).isSome ↔ x ∈ l.map (·.1) := by
  intro l x
  induction l with
  | nil => simp [lookupA]
  | cons p rest ih =>
    obtain ⟨a, b⟩ := p
    by_cases h : a = x
    · subst h
      simp [lookupA]
    · simp only [lookupA, if_neg h, List.map_cons, List.mem_cons]
      rw [ih]
      constructor
      · exact Or.inr
      · rintro (hc | hc)
        · exact absurd hc.symm h
        · exact hc

theorem lookupA_upsert {α β : Type} [DecidableEq α] :
    ∀ (l : List (α × β)) (k x : α) (v : β),
      lookupA (upsertA l k v) x = if x = k then some v else lookupA l x := by
  intro l k x v
  induction l with
  | nil =>
    by_cases h : x = k
    · subst h
      simp [upsertA, lookupA]
    · have h' : ¬k = x := fun hc => h hc.symm
      simp [upsertA, lookupA, h, h']
  | cons p rest ih =>
    obtain ⟨a, b⟩ := p
    by_cases hak : a = k
    · subst hak
      by_cases hx : a = x
      · rw [← hx]
        simp [upsertA, lookupA]
      · have hx' : ¬x = a := fun hc => hx hc.symm
        simp [upsertA, lookupA, hx, hx']
    · by_cases hax : a = x
      · rw [← hax]
        have hxk : ¬a = k := hak
        simp [upsertA, lookupA, hak, hxk]
      · have hx' : ¬x = a := fun hc => hax hc.symm
        simp [upsertA, lookupA, hak, hax, ih]

mutual

theorem deps_subset (ks : List Key) : ∀ (e : TaskE), ∀ d ∈ deps ks e, d ∈ ks
  | .ref k => by
    intro d hd
    rw [deps] at hd
    by_cases h : k ∈ ks
    · rw [if_pos h] at hd
      cases List.mem_singleton.mp hd
      exact h
    · rw [if_neg h] at hd
      cases hd
  | .tup (.func f :: args) => by
    intro d hd
    rw [deps] at hd
    exact depsList_subset ks args d hd
  | .listE es => by
    intro d hd
    rw [deps] at hd
    exact depsList_subset ks es d hd
  | .num x => by intro d hd; simp [deps] at hd
  | .func x => by intro d hd; simp [deps] at hd
  | .tup [] => by intro d hd; simp [deps] at hd
  | .tup (.num x :: rest) => by intro d hd; simp [deps] at hd
  | .tup (.ref r :: rest) => by intro d hd; simp [deps] at hd
  | .tup (.tup x :: rest) => by intro d hd; simp [deps] at hd
  | .tup (.listE x :: rest) => by intro d hd; simp [deps] at hd
  | .tup (.quoted x :: rest) => by intro d hd; simp [deps] at hd
  | .quoted x => by intro d hd; simp [deps] at hd

theorem depsList_subset (ks : List Key) :
    ∀ (es : List TaskE), ∀ d ∈ depsList ks es, d ∈ ks
  | [] => by intro d hd; simp [depsList] at hd
  | e :: rest => by
    intro d hd
    rw [depsList] at hd
    rcases List.mem_append.mp hd with h | h
    · exact deps_subset ks e d h
    · exact depsList_subset ks rest d h

end

mutual

/-- A dependency with respect to one key set is a dependency with
respect to any key set containing it. -/
theorem deps_transfer (ks₁ ks₂ : List Key) :
    ∀ (e : TaskE), ∀ d ∈ deps ks₂ e, d ∈ ks₁ → d ∈ deps ks₁ e
  | .ref k => by
    intro d hd hin
    rw [deps] at hd ⊢
    by_cases h : k ∈ ks₂
    · rw [if_pos h] at hd
      cases List.mem_singleton.mp hd
      rw [if_pos hin]
      exact List.mem_singleton.mpr rfl
    · rw [if_neg h] at hd
      cases hd
  | .tup (.func f :: args) => by
    intro d hd hin
    rw [deps] at hd ⊢
    exact depsList_transfer ks₁ ks₂ args d hd hin
  | .listE es => by
    intro d hd hin
    rw [deps] at hd ⊢
    exact depsList_transfer ks₁ ks₂ es d hd hin
  | .num x => by intro d hd _; simp [deps] at hd
  | .func x => by intro d hd _; simp [deps] at hd
  | .tup [] => by intro d hd _; simp [deps] at hd
  | .tup (.num x :: rest) => by intro d hd _; simp [deps] at hd
  | .tup (.ref r :: rest) => by intro d hd _; simp [deps] at hd
  | .tup (.tup x :: rest) => by intro d hd _; simp [deps] at hd
  | .tup (.listE x :: rest) => by intro d hd _; simp [deps] at hd
  | .tup (.quoted x :: rest) => by intro d hd _; simp [deps] at hd
  | .quoted x => by intro d hd _; simp [deps] at hd

theorem depsList_transfer (ks₁ ks₂ : List Key) :
    ∀ (es : List TaskE), ∀ d ∈ depsList ks₂ es, d ∈ ks₁ → d ∈ depsList ks₁ es
  | [] => by intro d hd _; simp [depsList] at hd
  | e :: rest => by
    intro d hd hin
    rw [depsList] at hd ⊢
    rcases List.mem_append.mp hd with h | h
    · exact List.mem_append.mpr (Or.inl (deps_transfer ks₁ ks₂ e d h hin))
    · exact List.mem_append.mpr (Or.inr (depsList_transfer ks₁ ks₂ rest d h hin))

end

/-- Reachability extends through one more dependency at the far end. -/
theorem reach_snoc {dsk : List (Key × TaskE)} {k j d : Key}
    (h : Reach dsk k j) (hd : d ∈ depsOfKey dsk j) : Reach dsk k d := by
  induction h with
  | refl k => exact Reach.head hd (Reach.refl d)
  | head hdep _ ih => exact Reach.head hdep (ih hd)

/-- Everything reachable from a member of a dependency-closed set is in
the set. -/
theorem reach_in_closed {dsk : List (Key × TaskE)} {S : List Key}
    (hclosed : ∀ j ∈ S, ∀ d ∈ depsOfKey dsk j, d ∈ S) :
    ∀ {k j : Key}, Reach dsk k j → k ∈ S → j ∈ S := by
  intro k j h
  induction h with
  | refl k => exact fun hk => hk
  | head hdep _ ih => exact fun hk => ih (hclosed _ hk _ hdep)

theorem depsOfKey_subset (dsk : List (Key × TaskE)) (k : Key) :
    ∀ d ∈ depsOfKey dsk k, d ∈ keysOf dsk := by
  intro d hd
  unfold depsOfKey at hd
  cases hl : lookupA dsk k with
  | none => rw [hl] at hd; cases hd
  | some e =>
    rw [hl] at hd
    exact deps_subset _ e d hd

theorem keysOf_upsert (l : List (Key × TaskE)) (k j : Key) (v : TaskE) :
    j ∈ keysOf (upsertA l k v) ↔ j = k ∨ j ∈ keysOf l := by
  rw [keysOf, ← lookupA_isSome_iff, lookupA_upsert, keysOf, ← lookupA_isSome_iff]
  by_cases h : j = k <;> simp [h]

theorem length_le_of_nodup_subset {α : Type} [DecidableEq α] {l₁ l₂ : List α}
    (h₁ : l₁.Nodup) (hsub : ∀ x ∈ l₁, x ∈ l₂) : l₁.length ≤ l₂.length :=
  calc l₁.length = l₁.toFinset.card := (List.toFinset_card_of_nodup h₁).symm
    _ ≤ l₂.toFinset.card :=
        Finset.card_le_card
          (fun x hx => List.mem_toFinset.mpr (hsub x (List.mem_toFinset.mp hx)))
    _ ≤ l₂.length := l₂.toFinset_card_le

/-- The fold of `seenFold` appends exactly the fresh dependencies to
both accumulators. -/
theorem seenFold_spec : ∀ (ds s n : List Key),
    ∃ fresh, ds.foldl seenFold (s, n) = (s ++ fresh, n ++ fresh)
      ∧ (∀ d ∈ fresh, d ∈ ds)
      ∧ (s.Nodup → (s ++ fresh).Nodup)
      ∧ (∀ d ∈ ds, d ∈ s ++ fresh) := by
  intro ds
  induction ds with
  | nil =>
    intro s n
    exact ⟨[], by simp, by simp, fun h => by simpa, by simp⟩
  | cons d rest ih =>
    intro s n
    by_cases hd : d ∈ s
    · obtain ⟨fresh, hfold, hsub, hnd, hall⟩ := ih s n
      refine ⟨fresh, ?_, ?_, hnd, ?_⟩
      · rw [List.foldl_cons]
        simpa [seenFold, hd] using hfold
      · exact fun x hx => List.mem_cons_of_mem _ (hsub x hx)
      · intro x hx
        rcases List.mem_cons.mp hx with rfl | hx'
        · exact List.mem_append.mpr (Or.inl hd)
        · exact hall x hx'
    · obtain ⟨fresh, hfold, hsub, hnd, hall⟩ := ih (s ++ [d]) (n ++ [d])
      refine ⟨d :: fresh, ?_, ?_, ?_, ?_⟩
      · rw [List.foldl_cons]
        have hstep : seenFold (s, n) d = (s ++ [d], n ++ [d]) := by
          simp [seenFold, hd]
        rw [hstep, hfold, ← List.append_cons, ← List.append_cons]
      · intro x hx
        rcases List.mem_cons.mp hx with rfl | hx'
        · exact List.mem_cons_self _ _
        · exact List.mem_cons_of_mem _ (hsub x hx')
      · intro hs
        have hsd : (s ++ [d]).Nodup := by
          simp [List.nodup_append, hs, hd]
        have h2 := hnd hsd
        rwa [← List.append_cons] at h2
      · intro x hx
        rcases List.mem_cons.mp hx with rfl | hx'
        · exact List.mem_append.mpr (Or.inr (List.mem_cons_self _ _))
        · have := hall x hx'
          rwa [← List.append_cons] at this

/-- The behaviour of one `cull` round: the new seen list is the old one
plus the new work; exactly the worked keys join `out`; the new work
items are fresh dependencies of worked keys; dependencies of every
worked key are seen afterwards. -/
theorem cullRound_spec (dsk : List (Key × TaskE)) :
    ∀ (work seen : List Key) (out : List (Key × TaskE)),
      (cullRound dsk seen out work).1 = seen ++ (cullRound dsk seen out work).2.2
      ∧ (∀ j, j ∈ keysOf (cullRound dsk seen out work).2.1
          ↔ j ∈ keysOf out ∨ j ∈ work)
      ∧ (∀ d ∈ (cullRound dsk seen out work).2.2,
          ∃ j ∈ work, d ∈ depsOfKey dsk j)
      ∧ (∀ j ∈ work, ∀ d ∈ depsOfKey dsk j, d ∈ (cullRound dsk seen out work).1)
      ∧ (seen.Nodup → (cullRound dsk seen out work).1.Nodup)
      ∧ ((∀ j ∈ work, j ∈ keysOf dsk) →
          (∀ j e, lookupA out j = some e → lookupA dsk j = some e) →
          (∀ j e, lookupA (cullRound dsk seen out work).2.1 j = some e →
            lookupA dsk j = some e)) := by
  intro work
  induction work with
  | nil =>
    intro seen out
    refine ⟨by simp [cullRound], ?_, ?_, ?_, ?_, ?_⟩
    · intro j
      simp [cullRound]
    · intro d hd
      simp [cullRound] at hd
    · intro j hj
      cases hj
    · intro h
      simpa [cullRound] using h
    · intro _ hout
      simpa [cullRound] using hout
  | cons k rest ih =>
    intro seen out
    obtain ⟨fresh, hfold, hfsub, hfnd, hfall⟩ := seenFold_spec (depsOfKey dsk k) seen []
    have hunfold : cullRound dsk seen out (k :: rest)
        = ((cullRound dsk (seen ++ fresh)
              (upsertA out k ((lookupA dsk k).getD (.num 0))) rest).1,
           (cullRound dsk (seen ++ fresh)
              (upsertA out k ((lookupA dsk k).getD (.num 0))) rest).2.1,
           ([] ++ fresh) ++ (cullRound dsk (seen ++ fresh)
              (upsertA out k ((lookupA dsk k).getD (.num 0))) rest).2.2) := by
      rw [cullRound]
      rw [hfold]
    set out1 := upsertA out k ((lookupA dsk k).getD (.num 0)) with hout1
    obtain ⟨r2, r1, r4, r5, r3, r6⟩ := ih (seen ++ fresh) out1
    refine ⟨?_, ?_, ?_, ?_, ?_, ?_⟩
    · rw [hunfold]
      simp only [List.nil_append]
      rw [r2, List.append_assoc]
    · intro j
      rw [hunfold]
      simp only
      rw [r1 j, keysOf_upsert]
      constructor
      · rintro ((h | h) | h)
        · exact Or.inr (h ▸ List.mem_cons_self _ _)
        · exact Or.inl h
        · exact Or.inr (List.mem_cons_of_mem _ h)
      · rintro (h | h)
        · exact Or.inl (Or.inr h)
        · rcases List.mem_cons.mp h with rfl | h'
          · exact Or.inl (Or.inl rfl)
          · exact Or.inr h'
    · intro d hd
      rw [hunfold] at hd
      simp only [List.nil_append] at hd
      rcases List.mem_append.mp hd with h | h
      · exact ⟨k, List.mem_cons_self _ _, hfsub d h⟩
      · obtain ⟨j, hj, hdj⟩ := r4 d h
        exact ⟨j, List.mem_cons_of_mem _ hj, hdj⟩
    · intro j hj d hd
      rw [hunfold]
      simp only
      rcases List.mem_cons.mp hj with rfl | hj'
      · have : d ∈ seen ++ fresh := hfall d hd
        rw [r2]
        exact List.mem_append.mpr (Or.inl this)
      · exact r5 j hj' d hd
    · intro hnd
      rw [hunfold]
      simp only
      exact r3 (hfnd hnd)
    · intro hw hout
      rw [hunfold]
      simp only
      have hk : k ∈ keysOf dsk := hw k (List.mem_cons_self _ _)
      have hksome : (lookupA dsk k).isSome := (lookupA_isSome_iff dsk k).mpr hk
      have hout1 : ∀ j e, lookupA out1 j = some e → lookupA dsk j = some e := by
        intro j e hj
        rw [hout1, lookupA_upsert] at hj
        by_cases hjk : j = k
        · rw [if_pos hjk] at hj
          cases hlk : lookupA dsk k with
          | none => rw [hlk] at hksome; cases hksome
          | some e' =>
            rw [hlk] at hj
            simp only [Option.getD, Option.some.injEq] at hj
            rw [hjk, hlk, hj]
        · rw [if_neg hjk] at hj
          exact hout j e hj
      exact r6 (fun j hj => hw j (List.mem_cons_of_mem _ hj)) hout1

theorem cullLoop_nil (dsk : List (Key × TaskE)) :
    ∀ (fuel : Nat) (seen : List Key) (out : List (Key × TaskE)),
      cullLoop dsk fuel seen out [] = out := by
  intro fuel seen out
  cases fuel <;> rfl

/-- Invariant-based specification of the `cull` work loop: with enough
fuel, the output contains exactly the already-recorded keys, the work
items and everything reachable through them; it is dependency-closed,
sound for reachability from `root`, and its entries are graph
entries. -/
theorem cullLoop_spec (dsk : List (Key × TaskE)) (root : Key) :
    ∀ (fuel : Nat) (seen work : List Key) (out : List (Key × TaskE)),
      (keysOf dsk).length + 1 ≤ fuel + seen.length →
      seen.Nodup →
      (∀ j ∈ seen, j ∈ keysOf dsk) →
      (∀ j ∈ work, j ∈ keysOf dsk) →
      (∀ j ∈ seen, Reach dsk root j) →
      (∀ j ∈ work, Reach dsk root j) →
      (∀ j ∈ keysOf out, Reach dsk root j) →
      (∀ j ∈ keysOf out, ∀ d ∈ depsOfKey dsk j, d ∈ seen) →
      (∀ j ∈ seen, j ∈ keysOf out ++ work) →
      (∀ j e, lookupA out j = some e → lookupA dsk j = some e) →
      (∀ j, (j ∈ keysOf out ∨ j ∈ work) →
        j ∈ keysOf (cullLoop dsk fuel seen out work))
      ∧ (∀ j ∈ keysOf (cullLoop dsk fuel seen out work), Reach dsk root j)
      ∧ (∀ j ∈ keysOf (cullLoop dsk fuel seen out work),
          ∀ d ∈ depsOfKey dsk j, d ∈ keysOf (cullLoop dsk fuel seen out work))
      ∧ (∀ j e, lookupA (cullLoop dsk fuel seen out work) j = some e →
          lookupA dsk j = some e) := by
  intro fuel
  induction fuel with
  | zero =>
    intro seen work out hfuel hnd hseenk _ _ _ _ _ _ _
    exfalso
    have := length_le_of_nodup_subset hnd hseenk
    omega
  | succ fuel ih =>
    intro seen work out hfuel hnd hseenk hworkk hseenr hworkr houtr hdeps hcover hout
    cases work with
    | nil =>
      rw [cullLoop_nil]
      refine ⟨?_, houtr, ?_, hout⟩
      · rintro j (h | h)
        · exact h
        · cases h
      · intro j hj d hd
        have := hdeps j hj d hd
        have := hcover d this
        simpa using this
    | cons k rest =>
      obtain ⟨r2, r1, r4, r5, r3, r6⟩ := cullRound_spec dsk (k :: rest) seen out
      have hworkk' : ∀ j ∈ (cullRound dsk seen out (k :: rest)).2.2, j ∈ keysOf dsk := by
        intro j hj
        obtain ⟨j', _, hd⟩ := r4 j hj
        exact depsOfKey_subset dsk j' j hd
      have hseenk' : ∀ j ∈ (cullRound dsk seen out (k :: rest)).1, j ∈ keysOf dsk := by
        intro j hj
        rw [r2] at hj
        rcases List.mem_append.mp hj with h | h
        · exact hseenk j h
        · exact hworkk' j h
      have hnewr : ∀ j ∈ (cullRound dsk seen out (k :: rest)).2.2, Reach dsk root j := by
        intro j hj
        obtain ⟨j', hj', hd⟩ := r4 j hj
        exact reach_snoc (hworkr j' hj') hd
      have hseenr' : ∀ j ∈ (cullRound dsk seen out (k :: rest)).1, Reach dsk root j := by
        intro j hj
        rw [r2] at hj
        rcases List.mem_append.mp hj with h | h
        · exact hseenr j h
        · exact hnewr j h
      have houtr' : ∀ j ∈ keysOf (cullRound dsk seen out (k :: rest)).2.1,
          Reach dsk root j := by
        intro j hj
        rcases (r1 j).mp hj with h | h
        · exact houtr j h
        · exact hworkr j h
      have hdeps' : ∀ j ∈ keysOf (cullRound dsk seen out (k :: rest)).2.1,
          ∀ d ∈ depsOfKey dsk j, d ∈ (cullRound dsk seen out (k :: rest)).1 := by
        intro j hj d hd
        rcases (r1 j).mp hj with h | h
        · have := hdeps j h d hd
          rw [r2]
          exact List.mem_append.mpr (Or.inl this)
        · exact r5 j h d hd
      have hcover' : ∀ j ∈ (cullRound dsk seen out (k :: rest)).1,
          j ∈ keysOf (cullRound dsk seen out (k :: rest)).2.1
            ++ (cullRound dsk seen out (k :: rest)).2.2 := by
        intro j hj
        rw [r2] at hj
        rcases List.mem_append.mp hj with h | h
        · have := hcover j h
          rcases List.mem_append.mp this with h' | h'
          · exact List.mem_append.mpr (Or.inl ((r1 j).mpr (Or.inl h')))
          · exact List.mem_append.mpr (Or.inl ((r1 j).mpr (Or.inr h')))
        · exact List.mem_append.mpr (Or.inr h)
      have hout' := r6 hworkk hout
      have hunfold : cullLoop dsk (fuel + 1) seen out (k :: rest)
          = cullLoop dsk fuel (cullRound dsk seen out (k :: rest)).1
              (cullRound dsk seen out (k :: rest)).2.1
              (cullRound dsk seen out (k :: rest)).2.2 := rfl
      by_cases hnw : (cullRound dsk seen out (k :: rest)).2.2 = []
      · -- no new work: the loop ends on the next pass with the round's out
        rw [hunfold, hnw, cullLoop_nil]
        refine ⟨?_, houtr', ?_, hout'⟩
        · intro j hj
          exact (r1 j).mpr hj
        · intro j hj d hd
          have hds := hdeps' j hj d hd
          have := hcover' d hds
          rw [hnw] at this
          simpa using this
      · -- new work: the seen set grew strictly, recurse
        have hlen : seen.length + 1 ≤ (cullRound dsk seen out (k :: rest)).1.length := by
          rw [r2, List.length_append]
          have : (cullRound dsk seen out (k :: rest)).2.2.length ≠ 0 :=
            fun hc => hnw (List.length_eq_zero.mp hc)
          omega
        have hfuel' : (keysOf dsk).length + 1
            ≤ fuel + (cullRound dsk seen out (k :: rest)).1.length := by
          omega
        rw [hunfold]
        exact (fun h =>
          ⟨fun j hj => h.1 j (Or.inl ((r1 j).mpr hj)), h.2.1, h.2.2.1, h.2.2.2⟩)
          (ih (cullRound dsk seen out (k :: rest)).1
            (cullRound dsk seen out (k :: rest)).2.2
            (cullRound dsk seen out (k :: rest)).2.1
            hfuel' (r3 hnd) hseenk' hworkk' hseenr' hnewr houtr' hdeps' hcover' hout')

/-- `cull(dsk, root)` retains exactly the keys reachable from `root`;
its entries are the graph's entries; and it is dependency-closed. -/
theorem cull_spec (dsk : List (Key × TaskE)) (root : Key)
    (hroot : root ∈ keysOf dsk) :
    (∀ j, j ∈ keysOf (cull dsk root) ↔ Reach dsk root j)
    ∧ (∀ j e, lookupA (cull dsk root) j = some e → lookupA dsk j = some e)
    ∧ (∀ j ∈ keysOf (cull dsk root),
        ∀ d ∈ depsOfKey dsk j, d ∈ keysOf (cull dsk root)) := by
  have h := cullLoop_spec dsk root (dsk.length + 2) [] [root] []
    (by
      have : (keysOf dsk).length = dsk.length := List.length_map _ _
      omega)
    List.nodup_nil
    (by intro j hj; cases hj)
    (by
      intro j hj
      cases List.mem_singleton.mp hj
      exact hroot)
    (by intro j hj; cases hj)
    (by
      intro j hj
      cases List.mem_singleton.mp hj
      exact Reach.refl root)
    (by intro j hj; simp [keysOf] at hj)
    (by intro j hj; simp [keysOf] at hj)
    (by intro j hj; cases hj)
    (by intro j e hj; simp [lookupA] at hj)
  obtain ⟨h1, h2, h3, h4⟩ := h
  refine ⟨?_, h4, h3⟩
  intro j
  constructor
  · exact h2 j
  · intro hr
    have hrootmem : root ∈ keysOf (cull dsk root) :=
      h1 root (Or.inr (List.mem_singleton.mpr rfl))
    exact reach_in_closed h3 hr hrootmem

/-- The key stores a task (a tuple whose first element is callable). -/
def isTaskKey (dsk : List (Key × TaskE)) (j : Key) : Prop :=
  ∃ e, lookupA dsk j = some e ∧ istask e = true

mutual

/-- Trace soundness: every key in the trace of an evaluation of `k` is
reachable from `k` and holds a task. -/
theorem evalKey_sound (env : Env) (dsk : List (Key × TaskE)) :
    ∀ (fuel : Nat) (k : Key) (res : Except EvalErr TaskE) (tr : List Key),
      evalKeyF env dsk fuel k = (res, tr) →
      ∀ j ∈ tr, Reach dsk k j ∧ isTaskKey dsk j
  | 0, k, res, tr => by
    intro h j hj
    simp only [evalKeyF, Prod.mk.injEq] at h
    rw [← h.2] at hj
    cases hj
  | fuel + 1, k, res, tr => by
    intro h j hj
    cases hl : lookupA dsk k with
    | none =>
      simp only [evalKeyF, hl, Prod.mk.injEq] at h
      rw [← h.2] at hj
      cases hj
    | some e =>
      have hke : ∀ j', j' ∈ deps (keysOf dsk) e → j' ∈ depsOfKey dsk k := by
        intro j' hj'
        unfold depsOfKey
        rw [hl]
        exact hj'
      cases he : evalExprF env dsk fuel e with
      | mk eres tre =>
        have hsub : ∀ x ∈ tre, Reach dsk k x ∧ isTaskKey dsk x := by
          intro x hx
          obtain ⟨⟨d, hd, hrx⟩, htask⟩ :=
            evalExpr_sound env dsk fuel e eres tre he x hx
          exact ⟨Reach.head (hke d hd) hrx, htask⟩
        cases eres with
        | ok v =>
          simp only [evalKeyF, hl, he, Prod.mk.injEq] at h
          rw [← h.2] at hj
          rcases List.mem_append.mp hj with hj' | hj'
          · by_cases hte : istask e
            · rw [if_pos hte] at hj'
              cases List.mem_singleton.mp hj'
              exact ⟨Reach.refl k, e, hl, hte⟩
            · rw [if_neg hte] at hj'
              cases hj'
          · exact hsub j hj'
        | error err =>
          cases err with
          | raw te =>
            simp only [evalKeyF, hl, he, Prod.mk.injEq] at h
            rw [← h.2] at hj
            exact hsub j hj
          | atKey k' t' te' =>
            simp only [evalKeyF, hl, he, Prod.mk.injEq] at h
            rw [← h.2] at hj
            exact hsub j hj

theorem evalExpr_sound (env : Env) (dsk : List (Key × TaskE)) :
    ∀ (fuel : Nat) (e : TaskE) (res : Except EvalErr TaskE) (tr : List Key),
      evalExprF env dsk fuel e = (res, tr) →
      ∀ j ∈ tr, (∃ d ∈ deps (keysOf dsk) e, Reach dsk d j) ∧ isTaskKey dsk j
  | 0, e, res, tr => by
    intro h j hj
    simp only [evalExprF, Prod.mk.injEq] at h
    rw [← h.2] at hj
    cases hj
  | fuel + 1, .ref k, res, tr => by
    intro h j hj
    rw [evalExprF] at h
    by_cases hk : (lookupA dsk k).isSome
    · rw [if_pos hk] at h
      obtain ⟨hr, htask⟩ := evalKey_sound env dsk fuel k res tr h j hj
      have hkmem : k ∈ keysOf dsk := (lookupA_isSome_iff dsk k).mp hk
      refine ⟨⟨k, ?_, hr⟩, htask⟩
      rw [deps, if_pos hkmem]
      exact List.mem_singleton.mpr rfl
    · rw [if_neg hk] at h
      simp only [Prod.mk.injEq] at h
      rw [← h.2] at hj
      cases hj
  | fuel + 1, .tup (.func f :: args), res, tr => by
    intro h j hj
    cases ha : evalArgsF env dsk fuel args with
    | mk ares tra =>
      have key : ∀ x ∈ tra,
          (∃ d ∈ deps (keysOf dsk) (.tup (.func f :: args)), Reach dsk d x)
          ∧ isTaskKey dsk x := by
        intro x hx
        obtain ⟨⟨d, hd, hrx⟩, htask⟩ :=
          evalArgs_sound env dsk fuel args ares tra ha x hx
        refine ⟨⟨d, ?_, hrx⟩, htask⟩
        rw [deps]
        exact hd
      cases ares with
      | ok vs =>
        cases hf : env f vs with
        | ok v =>
          simp only [evalExprF, ha, hf, Prod.mk.injEq] at h
          rw [← h.2] at hj
          exact key j hj
        | error te =>
          simp only [evalExprF, ha, hf, Prod.mk.injEq] at h
          rw [← h.2] at hj
          exact key j hj
      | error err =>
        simp only [evalExprF, ha, Prod.mk.injEq] at h
        rw [← h.2] at hj
        exact key j hj
  | fuel + 1, .listE es, res, tr => by
    intro h j hj
    cases ha : evalArgsF env dsk fuel es with
    | mk ares tra =>
      have key : ∀ x ∈ tra,
          (∃ d ∈ deps (keysOf dsk) (.listE es), Reach dsk d x)
          ∧ isTaskKey dsk x := by
        intro x hx
        obtain ⟨⟨d, hd, hrx⟩, htask⟩ :=
          evalArgs_sound env dsk fuel es ares tra ha x hx
        refine ⟨⟨d, ?_, hrx⟩, htask⟩
        rw [deps]
        exact hd
      cases ares with
      | ok vs =>
        simp only [evalExprF, ha, Prod.mk.injEq] at h
        rw [← h.2] at hj
        exact key j hj
      | error err =>
        simp only [evalExprF, ha, Prod.mk.injEq] at h
        rw [← h.2] at hj
        exact key j hj
  | fuel + 1, .num x, res, tr => by
    intro h j hj
    simp only [evalExprF, Prod.mk.injEq] at h
    rw [← h.2] at hj
    cases hj
  | fuel + 1, .func x, res, tr => by
    intro h j hj
    simp only [evalExprF, Prod.mk.injEq] at h
    rw [← h.2] at hj
    cases hj
  | fuel + 1, .tup [], res, tr => by
    intro h j hj
    simp only [evalExprF, Prod.mk.injEq] at h
    rw [← h.2] at hj
    cases hj
  | fuel + 1, .tup (.num x :: rest), res, tr => by
    intro h j hj
    simp only [evalExprF, Prod.mk.injEq] at h
    rw [← h.2] at hj
    cases hj
  | fuel + 1, .tup (.ref r :: rest), res, tr => by
    intro h j hj
    simp only [evalExprF, Prod.mk.injEq] at h
    rw [← h.2] at hj
    cases hj
  | fuel + 1, .tup (.tup x :: rest), res, tr => by
    intro h j hj
    simp only [evalExprF, Prod.mk.injEq] at h
    rw [← h.2] at hj
    cases hj
  | fuel + 1, .tup (.listE x :: rest), res, tr => by
    intro h j hj
    simp only [evalExprF, Prod.mk.injEq] at h
    rw [← h.2] at hj
    cases hj
  | fuel + 1, .tup (.quoted x :: rest), res, tr => by
    intro h j hj
    simp only [evalExprF, Prod.mk.injEq] at h
    rw [← h.2] at hj
    cases hj
  | fuel + 1, .quoted x, res, tr => by
    intro h j hj
    simp only [evalExprF, Prod.mk.injEq] at h
    rw [← h.2] at hj
    cases hj

theorem evalArgs_sound (env : Env) (dsk : List (Key × TaskE)) :
    ∀ (fuel : Nat) (es : List TaskE) (res : Except EvalErr (List TaskE)) (tr : List Key),
      evalArgsF env dsk fuel es = (res, tr) →
      ∀ j ∈ tr, (∃ d ∈ depsList (keysOf dsk) es, Reach dsk d j) ∧ isTaskKey dsk j
  | 0, es, res, tr => by
    intro h j hj
    simp only [evalArgsF, Prod.mk.injEq] at h
    rw [← h.2] at hj
    cases hj
  | fuel + 1, [], res, tr => by
    intro h j hj
    simp only [evalArgsF, Prod.mk.injEq] at h
    rw [← h.2] at hj
    cases hj
  | fuel + 1, e :: rest, res, tr => by
    intro h j hj
    have hmem1 : ∀ x, (∃ d ∈ deps (keysOf dsk) e, Reach dsk d x) ∧ isTaskKey dsk x →
        (∃ d ∈ depsList (keysOf dsk) (e :: rest), Reach dsk d x) ∧ isTaskKey dsk x := by
      rintro x ⟨⟨d, hd, hrx⟩, htask⟩
      refine ⟨⟨d, ?_, hrx⟩, htask⟩
      rw [depsList]
      exact List.mem_append.mpr (Or.inl hd)
    have hmem2 : ∀ x, (∃ d ∈ depsList (keysOf dsk) rest, Reach dsk d x) ∧ isTaskKey dsk x →
        (∃ d ∈ depsList (keysOf dsk) (e :: rest), Reach dsk d x) ∧ isTaskKey dsk x := by
      rintro x ⟨⟨d, hd, hrx⟩, htask⟩
      refine ⟨⟨d, ?_, hrx⟩, htask⟩
      rw [depsList]
      exact List.mem_append.mpr (Or.inr hd)
    cases he : evalExprF env dsk fuel e with
    | mk eres tr1 =>
      cases eres with
      | ok v =>
        cases hr : evalArgsF env dsk fuel rest with
        | mk rres tr2 =>
          cases rres with
          | ok vs =>
            simp only [evalArgsF, he, hr, Prod.mk.injEq] at h
            rw [← h.2] at hj
            rcases List.mem_append.mp hj with hj' | hj'
            · exact hmem1 j (evalExpr_sound env dsk fuel e _ tr1 he j hj')
            · exact hmem2 j (evalArgs_sound env dsk fuel rest _ tr2 hr j hj')
          | error err =>
            simp only [evalArgsF, he, hr, Prod.mk.injEq] at h
            rw [← h.2] at hj
            rcases List.mem_append.mp hj with hj' | hj'
            · exact hmem1 j (evalExpr_sound env dsk fuel e _ tr1 he j hj')
            · exact hmem2 j (evalArgs_sound env dsk fuel rest _ tr2 hr j hj')
      | error err =>
        simp only [evalArgsF, he, Prod.mk.injEq] at h
        rw [← h.2] at hj
        exact hmem1 j (evalExpr_sound env dsk fuel e _ tr1 he j hj)

end

mutual

/-- Trace completeness, expression step: a successful expression
evaluation contains, for each dependency of the expression, a
successful key evaluation whose trace is contained in the
expression's trace. -/
theorem evalExpr_okdeps (env : Env) (dsk : List (Key × TaskE)) :
    ∀ (fuel : Nat) (e v : TaskE) (tr : List Key),
      evalExprF env dsk fuel e = (.ok v, tr) →
      ∀ d ∈ deps (keysOf dsk) e,
        ∃ fuel' v' tr', evalKeyF env dsk fuel' d = (.ok v', tr')
          ∧ ∀ x ∈ tr', x ∈ tr
  | 0, e, v, tr => by
    intro h d hd
    simp [evalExprF] at h
  | fuel + 1, .ref k, v, tr => by
    intro h d hd
    rw [evalExprF] at h
    by_cases hk : (lookupA dsk k).isSome
    · rw [if_pos hk] at h
      rw [deps] at hd
      have hkm : k ∈ keysOf dsk := (lookupA_isSome_iff dsk k).mp hk
      rw [if_pos hkm] at hd
      cases List.mem_singleton.mp hd
      exact ⟨fuel, v, tr, h, fun x hx => hx⟩
    · rw [if_neg hk] at h
      rw [deps] at hd
      have hkm : k ∉ keysOf dsk := fun hm => hk ((lookupA_isSome_iff dsk k).mpr hm)
      rw [if_neg hkm] at hd
      cases hd
  | fuel + 1, .tup (.func f :: args), v, tr => by
    intro h d hd
    rw [deps] at hd
    cases ha : evalArgsF env dsk fuel args with
    | mk ares tra =>
      cases ares with
      | ok vs =>
        cases hf : env f vs with
        | ok v' =>
          simp only [evalExprF, ha, hf, Prod.mk.injEq] at h
          obtain ⟨fuel', v'', tr', hev, hsub⟩ :=
            evalArgs_okdeps env dsk fuel args vs tra ha d hd
          exact ⟨fuel', v'', tr', hev, fun x hx => h.2 ▸ hsub x hx⟩
        | error te => simp [evalExprF, ha, hf] at h
      | error err => simp [evalExprF, ha] at h
  | fuel + 1, .listE es, v, tr => by
    intro h d hd
    rw [deps] at hd
    cases ha : evalArgsF env dsk fuel es with
    | mk ares tra =>
      cases ares with
      | ok vs =>
        simp only [evalExprF, ha, Prod.mk.injEq] at h
        obtain ⟨fuel', v'', tr', hev, hsub⟩ :=
          evalArgs_okdeps env dsk fuel es vs tra ha d hd
        exact ⟨fuel', v'', tr', hev, fun x hx => h.2 ▸ hsub x hx⟩
      | error err => simp [evalExprF, ha] at h
  | fuel + 1, .num x, v, tr => by intro h d hd; simp [deps] at hd
  | fuel + 1, .func x, v, tr => by intro h d hd; simp [deps] at hd
  | fuel + 1, .tup [], v, tr => by intro h d hd; simp [deps] at hd
  | fuel + 1, .tup (.num x :: rest), v, tr => by intro h d hd; simp [deps] at hd
  | fuel + 1, .tup (.ref r :: rest), v, tr => by intro h d hd; simp [deps] at hd
  | fuel + 1, .tup (.tup x :: rest), v, tr => by intro h d hd; simp [deps] at hd
  | fuel + 1, .tup (.listE x :: rest), v, tr => by intro h d hd; simp [deps] at hd
  | fuel + 1, .tup (.quoted x :: rest), v, tr => by intro h d hd; simp [deps] at hd
  | fuel + 1, .quoted x, v, tr => by intro h d hd; simp [deps] at hd

theorem evalArgs_okdeps (env : Env) (dsk : List (Key × TaskE)) :
    ∀ (fuel : Nat) (es vs : List TaskE) (tr : List Key),
      evalArgsF env dsk fuel es = (.ok vs, tr) →
      ∀ d ∈ depsList (keysOf dsk) es,
        ∃ fuel' v' tr', evalKeyF env dsk fuel' d = (.ok v', tr')
          ∧ ∀ x ∈ tr', x ∈ tr
  | 0, es, vs, tr => by
    intro h d hd
    simp [evalArgsF] at h
  | fuel + 1, [], vs, tr => by
    intro h d hd
    simp [depsList] at hd
  | fuel + 1, e :: rest, vs, tr => by
    intro h d hd
    rw [depsList] at hd
    cases he : evalExprF env dsk fuel e with
    | mk eres tr1 =>
      cases eres with
      | ok v =>
        cases hr : evalArgsF env dsk fuel rest with
        | mk rres tr2 =>
          cases rres with
          | ok vs' =>
            simp only [evalArgsF, he, hr, Prod.mk.injEq] at h
            rcases List.mem_append.mp hd with hd' | hd'
            · obtain ⟨fuel', v'', tr', hev, hsub⟩ :=
                evalExpr_okdeps env dsk fuel e v tr1 he d hd'
              refine ⟨fuel', v'', tr', hev, fun x hx => ?_⟩
              rw [← h.2]
              exact List.mem_append.mpr (Or.inl (hsub x hx))
            · obtain ⟨fuel', v'', tr', hev, hsub⟩ :=
                evalArgs_okdeps env dsk fuel rest vs' tr2 hr d hd'
              refine ⟨fuel', v'', tr', hev, fun x hx => ?_⟩
              rw [← h.2]
              exact List.mem_append.mpr (Or.inr (hsub x hx))
          | error err => simp [evalArgsF, he, hr] at h
      | error err => simp [evalArgsF, he] at h

end

/-- Trace completeness: when the evaluation of `root` succeeds, every
key reachable from `root` that holds a task appears in the trace. -/
theorem evalKey_complete (env : Env) (dsk : List (Key × TaskE)) {root j : Key}
    (hreach : Reach dsk root j) :
    ∀ (fuel : Nat) (v : TaskE) (tr : List Key),
      evalKeyF env dsk fuel root = (.ok v, tr) → isTaskKey dsk j → j ∈ tr := by
  induction hreach with
  | refl k =>
    intro fuel v tr h htask
    obtain ⟨e, hl, hte⟩ := htask
    cases fuel with
    | zero => simp [evalKeyF] at h
    | succ fuel =>
      cases he : evalExprF env dsk fuel e with
      | mk eres tre =>
        cases eres with
        | ok v' =>
          simp only [evalKeyF, hl, he, Prod.mk.injEq] at h
          rw [← h.2, if_pos hte]
          exact List.mem_append.mpr (Or.inl (List.mem_singleton.mpr rfl))
        | error err =>
          cases err with
          | raw te => simp [evalKeyF, hl, he] at h
          | atKey k' t' te' => simp [evalKeyF, hl, he] at h
  | head hdep hre ih =>
    intro fuel v tr h htask
    cases fuel with
    | zero => simp [evalKeyF] at h
    | succ fuel =>
      rename_i k d j'
      cases hl : lookupA dsk k with
      | none => simp [evalKeyF, hl] at h
      | some e =>
        cases he : evalExprF env dsk fuel e with
        | mk eres tre =>
          cases eres with
          | ok v' =>
            have hd : d ∈ deps (keysOf dsk) e := by
              unfold depsOfKey at hdep
              rw [hl] at hdep
              exact hdep
            obtain ⟨fuel', v'', tr', hev, hsub⟩ :=
              evalExpr_okdeps env dsk fuel e v' tre he d hd
            have hj := ih fuel' v'' tr' hev htask
            simp only [evalKeyF, hl, he, Prod.mk.injEq] at h
            rw [← h.2]
            exact List.mem_append.mpr (Or.inr (hsub _ hj))
          | error err =>
            cases err with
            | raw te => simp [evalKeyF, hl, he] at h
            | atKey k' t' te' => simp [evalKeyF, hl, he] at h

/-- Reachability stays within the graph's keys. -/
theorem reach_mem {dsk : List (Key × TaskE)} :
    ∀ {root j : Key}, Reach dsk root j → root ∈ keysOf dsk → j ∈ keysOf dsk := by
  intro root j h
  induction h with
  | refl k => exact fun hk => hk
  | head hdep _ ih => exact fun _ => ih (depsOfKey_subset _ _ _ hdep)

/-- Dependencies in the culled graph are dependencies in the full
graph. -/
theorem depsOfKey_cull_sub (dsk : List (Key × TaskE)) (root : Key)
    (hroot : root ∈ keysOf dsk) :
    ∀ x d, d ∈ depsOfKey (cull dsk root) x → d ∈ depsOfKey dsk x := by
  obtain ⟨h1, h2, h3⟩ := cull_spec dsk root hroot
  intro x d hd
  unfold depsOfKey at hd
  cases hl : lookupA (cull dsk root) x with
  | none => rw [hl] at hd; cases hd
  | some e =>
    rw [hl] at hd
    have hd' : d ∈ deps (keysOf (cull dsk root)) e := hd
    have hdk : d ∈ keysOf dsk := by
      have hmem : d ∈ keysOf (cull dsk root) := deps_subset _ e d hd'
      exact reach_mem ((h1 d).mp hmem) hroot
    have hfull : d ∈ deps (keysOf dsk) e :=
      deps_transfer (keysOf dsk) (keysOf (cull dsk root)) e d hd' hdk
    have heq : depsOfKey dsk x = deps (keysOf dsk) e := by
      unfold depsOfKey
      rw [h2 x e hl]
      rfl
    rw [heq]
    exact hfull

/-- Dependencies of a culled key in the full graph are dependencies
in the culled graph. -/
theorem depsOfKey_cull_sup (dsk : List (Key × TaskE)) (root : Key)
    (hroot : root ∈ keysOf dsk) :
    ∀ x ∈ keysOf (cull dsk root), ∀ d ∈ depsOfKey dsk x,
      d ∈ depsOfKey (cull dsk root) x := by
  obtain ⟨h1, h2, h3⟩ := cull_spec dsk root hroot
  intro x hx d hd
  have hs : (lookupA (cull dsk root) x).isSome := (lookupA_isSome_iff _ x).mpr hx
  cases hl : lookupA (cull dsk root) x with
  | none => rw [hl] at hs; simp at hs
  | some e =>
    have hlf : lookupA dsk x = some e := h2 x e hl
    have hd' : d ∈ deps (keysOf dsk) e := by
      unfold depsOfKey at hd
      rw [hlf] at hd
      exact hd
    have hdc : d ∈ keysOf (cull dsk root) := h3 x hx d hd
    have hcull : d ∈ deps (keysOf (cull dsk root)) e :=
      deps_transfer (keysOf (cull dsk root)) (keysOf dsk) e d hd' hdc
    have heq : depsOfKey (cull dsk root) x = deps (keysOf (cull dsk root)) e := by
      unfold depsOfKey
      rw [hl]
      rfl
    rw [heq]
    exact hcull

/-- Reachability in the culled graph implies reachability in the full
graph. -/
theorem reach_cull_to_full (dsk : List (Key × TaskE)) (root : Key)
    (hroot : root ∈ keysOf dsk) :
    ∀ {a j : Key}, Reach (cull dsk root) a j → Reach dsk a j := by
  intro a j h
  induction h with
  | refl x => exact Reach.refl x
  | head hdep _ ih =>
    exact Reach.head (depsOfKey_cull_sub dsk root hroot _ _ hdep) ih

/-- Reachability in the full graph from a key reachable from the cull
root implies reachability in the culled graph. -/
theorem reach_full_to_cull (dsk : List (Key × TaskE)) (root : Key)
    (hroot : root ∈ keysOf dsk) :
    ∀ {a j : Key}, Reach dsk a j → Reach dsk root a → Reach (cull dsk root) a j := by
  intro a j h
  induction h with
  | refl x => exact fun _ => Reach.refl x
  | head hdep hre ih =>
    rename_i k d j'
    intro hrk
    have hkmem : k ∈ keysOf (cull dsk root) :=
      ((cull_spec dsk root hroot).1 k).mpr hrk
    exact Reach.head (depsOfKey_cull_sup dsk root hroot k hkmem d hdep)
      (ih (reach_snoc hrk hdep))

/-- The culling-and-evaluation contract of `getRun`: each invoked task
key is reachable and holds a task; on success, each reachable task key
is invoked. -/
theorem getRun_trace_closure (c : Computer) (env : Env) (k : Key)
    (hk : k ∈ keysOf (protectConfig c.graph).entries) :
    (∀ j ∈ (getRun c env k).2.1,
        Reach (protectConfig c.graph).entries k j
        ∧ isTaskKey (protectConfig c.graph).entries j)
    ∧ (∀ v, (getRun c env k).1 = Except.ok v →
        ∀ j, Reach (protectConfig c.graph).entries k j →
          isTaskKey (protectConfig c.graph).entries j →
          j ∈ (getRun c env k).2.1) := by
  obtain ⟨h1, h2, h3⟩ := cull_spec (protectConfig c.graph).entries k hk
  cases hev : evalKeyF env (cull (protectConfig c.graph).entries k)
      (graphFuel (cull (protectConfig c.graph).entries k)) k with
  | mk res tr =>
    have hsound : ∀ j ∈ tr,
        Reach (protectConfig c.graph).entries k j
        ∧ isTaskKey (protectConfig c.graph).entries j := by
      intro j hj
      obtain ⟨hr, htask⟩ := evalKey_sound env _ _ k res tr hev j hj
      refine ⟨reach_cull_to_full (protectConfig c.graph).entries k hk hr, ?_⟩
      obtain ⟨e, hl, ht⟩ := htask
      exact ⟨e, h2 j e hl, ht⟩
    have hcomp : ∀ v, res = Except.ok v →
        ∀ j, Reach (protectConfig c.graph).entries k j →
          isTaskKey (protectConfig c.graph).entries j → j ∈ tr := by
      intro v hv j hrj htj
      have hrj' : Reach (cull (protectConfig c.graph).entries k) k j :=
        reach_full_to_cull (protectConfig c.graph).entries k hk hrj (Reach.refl k)
      have hjm : j ∈ keysOf (cull (protectConfig c.graph).entries k) := (h1 j).mpr hrj
      have htj' : isTaskKey (cull (protectConfig c.graph).entries k) j := by
        obtain ⟨e, hl, ht⟩ := htj
        have hs : (lookupA (cull (protectConfig c.graph).entries k) j).isSome :=
          (lookupA_isSome_iff _ j).mpr hjm
        cases hl' : lookupA (cull (protectConfig c.graph).entries k) j with
        | none => rw [hl'] at hs; simp at hs
        | some e' =>
          have h4 := h2 j e' hl'
          rw [hl] at h4
          exact ⟨e', hl', (Option.some.inj h4) ▸ ht⟩
      rw [hv] at hev
      exact evalKey_complete env _ hrj' _ v tr hev htj'
    cases res with
    | ok v =>
      have hget : getRun c env k
          = (.ok v, tr, { c with graph := restoreConfig (protectConfig c.graph) }) := by
        simp only [getRun, hev]
      rw [hget]
      refine ⟨hsound, ?_⟩
      intro v' hv' j hrj htj
      exact hcomp v rfl j hrj htj
    | error e =>
      have hget : getRun c env k
          = (.error (wrapCE e), tr, { c with graph := restoreConfig (protectConfig c.graph) }) := by
        simp only [getRun, hev]
      rw [hget]
      refine ⟨hsound, ?_⟩
      intro v' hv' j hrj htj
      exact absurd hv' (by simp)

/-- C8: when a task raises during `Computer.get`, the failure is
re-raised as a *ComputationError* carrying the failing key, that key's
task (its printable form) and the original exception; the original
exception never escapes unwrapped, and the carried task is exactly the
failing key's graph entry. -/
theorem get_wraps_computation_error (c : Computer) (env : Env) (k0 k : Key)
    (hres : checkKeys c.graph (fun _ => false) [.ref k0] = .ok [.ref k])
    (j : Key) (t : TaskE) (te : TErr) (tr : List Key)
    (heval : evalKeyF env (cull (protectConfig c.graph).entries k)
        (graphFuel (cull (protectConfig c.graph).entries k)) k
      = (.error (.atKey j t te), tr)) :
    (getC c env (some k0)).1 = .error (.computation (some j) (some t) te)
    ∧ lookupA (cull (protectConfig c.graph).entries k) j = some t := by
  constructor
  · simp [getC, hres, getRun, heval, wrapCE]
  · exact evalKey_atKey env _ _ k j t te tr heval

/-- A Computer holding the failing task of `test_computationerror`:
`c.add("test", func, 1.0)` with `func` raising `TypeError`. -/
def cBoom : Computer :=
  ⟨Graph.insert ⟨[], [], []⟩ ⟨"test", [], none⟩ (.tup [.func "func", .num 1]), none,
    [ERROR_LEVEL]⟩

def envBoom : Env := fun _ _ => .error (.msg "TypeError")

/-- Witness for C8: the failing task at `test` is wrapped in a
*ComputationError* carrying the key, the task and the TypeError. -/
theorem get_wraps_computation_error_witness :
    (getC cBoom envBoom (some ⟨"test", [], none⟩)).1
      = .error (.computation (some ⟨"test", [], none⟩)
          (some (.tup [.func "func", .num 1])) (.msg "TypeError"))
    ∧ lookupA (cull (protectConfig cBoom.graph).entries ⟨"test", [], none⟩)
        ⟨"test", [], none⟩ = some (.tup [.func "func", .num 1]) :=
  get_wraps_computation_error cBoom envBoom ⟨"test", [], none⟩ ⟨"test", [], none⟩
    (by decide) ⟨"test", [], none⟩ (.tup [.func "func", .num 1]) (.msg "TypeError") []
    (by decide)

/-- C1: `Computer.get` restricts evaluation to the transitive
dependency closure of the requested key `k`: the culled graph holds
exactly the keys reachable from `k` in the (config-protected) graph,
every task invoked during evaluation is reachable from `k` and holds a
task, and — when evaluation succeeds — every key reachable from `k`
that holds a task is invoked. -/
theorem get_culls_and_evaluates_closure (c : Computer) (env : Env) (k0 k : Key)
    (hres : checkKeys c.graph (fun _ => false) [.ref k0] = .ok [.ref k])
    (hk : k ∈ keysOf (protectConfig c.graph).entries) :
    (∀ j, j ∈ keysOf (cull (protectConfig c.graph).entries k)
        ↔ Reach (protectConfig c.graph).entries k j)
    ∧ (∀ j ∈ (getC c env (some k0)).2.1,
        Reach (protectConfig c.graph).entries k j
        ∧ isTaskKey (protectConfig c.graph).entries j)
    ∧ (∀ v, (getC c env (some k0)).1 = Except.ok v →
        ∀ j, Reach (protectConfig c.graph).entries k j →
          isTaskKey (protectConfig c.graph).entries j →
          j ∈ (getC c env (some k0)).2.1) := by
  have hgc : getC c env (some k0) = getRun c env k := by
    simp [getC, hres]
  obtain ⟨hs, hc⟩ := getRun_trace_closure c env k hk
  rw [hgc]
  exact ⟨(cull_spec (protectConfig c.graph).entries k hk).1, hs, hc⟩

/-- A Computer with the chain `a ← b` plus a third key unreachable
from `a`. -/
def cClos : Computer :=
  ⟨Graph.insert
      (Graph.insert
        (Graph.insert ⟨[], [], []⟩ ⟨"b", [], none⟩ (.tup [.func "g"]))
        ⟨"a", [], none⟩ (.tup [.func "f", .ref ⟨"b", [], none⟩]))
      ⟨"other", [], none⟩ (.tup [.func "h"]),
    none, [ERROR_LEVEL]⟩

def envClos : Env := fun _ _ => .ok (.num 0)

/-- Witness for C1: the two-task chain `a ← b` with an unrelated third
key. -/
theorem get_culls_and_evaluates_closure_witness :
    (checkKeys cClos.graph (fun _ => false) [.ref ⟨"a", [], none⟩]
        = .ok [.ref ⟨"a", [], none⟩])
    ∧ ⟨"a", [], none⟩ ∈ keysOf (protectConfig cClos.graph).entries
    ∧ ((∀ j, j ∈ keysOf (cull (protectConfig cClos.graph).entries ⟨"a", [], none⟩)
          ↔ Reach (protectConfig cClos.graph).entries ⟨"a", [], none⟩ j)
      ∧ (∀ j ∈ (getC cClos envClos (some ⟨"a", [], none⟩)).2.1,
          Reach (protectConfig cClos.graph).entries ⟨"a", [], none⟩ j
          ∧ isTaskKey (protectConfig cClos.graph).entries j)
      ∧ (∀ v, (getC cClos envClos (some ⟨"a", [], none⟩)).1 = Except.ok v →
          ∀ j, Reach (protectConfig cClos.graph).entries ⟨"a", [], none⟩ j →
            isTaskKey (protectConfig cClos.graph).entries j →
            j ∈ (getC cClos envClos (some ⟨"a", [], none⟩)).2.1)) :=
  ⟨by decide, by decide,
    get_culls_and_evaluates_closure cClos envClos ⟨"a", [], none⟩ ⟨"a", [], none⟩
      (by decide) (by decide)⟩

end Genno
